import Mathlib

/-!
Verification of the `wtinylfu` crate (a W-TinyLFU cache built from a window
LRU, a segmented main cache and a frequency estimator), as a shallow
embedding of `src/lib.rs` and `src/slru.rs`.

State is passed explicitly: every mutating Rust method `&mut self` becomes a
Lean function returning the result together with the new state.  The bounded
LRU collaborator (the `lru` crate) is modelled as an association list in
most-recently-used-first order together with its capacity; the count-min
sketch and the Bloom doorkeeper collaborators are modelled exactly (an exact
per-key counter, an exact set), which is faithful to the interfaces the
façade consumes.  The floating point expressions `(cap as f64 * 0.01) as usize`
and `(cap as f64 * 0.2) as usize` reduce exactly to the natural number
divisions `cap / 100` and `cap / 5` for every capacity in range, because the
relative error of the f64 constants is far below the distance from any
realisable fractional part to the next integer; they are embedded as such.
-/

set_option linter.unusedSectionVars false

set_option linter.unnecessarySimpa false

namespace Wtinylfu

variable {K : Type} {V : Type} [DecidableEq K]

/-- Key-match predicate on stored entries, the role `Hash + Eq` plays in the
Rust source. -/
def keyd (k : K) : K × V → Bool := fun p => decide (p.1 = k)

/-- Model of the `lru` crate collaborator: a bounded LRU mapping, entries in
most-recently-used-first order. -/
structure Lru (K V : Type) where
  cap : Nat
  entries : List (K × V)
deriving DecidableEq

/-- `LruCache::new(cap)`. -/
def Lru.new (K V : Type) (cap : Nat) : Lru K V := ⟨cap, []⟩

/-- `LruCache::contains`. -/
def Lru.contains (l : Lru K V) (k : K) : Bool :=
  (l.entries.find? (keyd k)).isSome

/-- `LruCache::len`. -/
def Lru.len (l : Lru K V) : Nat := l.entries.length

/-- `LruCache::peek`: look up without promotion. -/
def Lru.peek (l : Lru K V) (k : K) : Option V :=
  (l.entries.find? (keyd k)).map (fun p => p.2)

/-- `LruCache::peek_mut`: same state-free lookup as `peek` in this embedding. -/
def Lru.peek_mut (l : Lru K V) (k : K) : Option V := l.peek k

/-- `LruCache::peek_lru`: the least recently used entry is the last one. -/
def Lru.peek_lru (l : Lru K V) : Option (K × V) := l.entries.getLast?

/-- `LruCache::get`: on a hit the entry is moved to the front (MRU). -/
def Lru.get (l : Lru K V) (k : K) : Option V × Lru K V :=
  match l.entries.find? (keyd k) with
  | some p => (some p.2, ⟨l.cap, p :: l.entries.eraseP (keyd k)⟩)
  | none => (none, l)

/-- `LruCache::get_mut`: same state transformation as `get`. -/
def Lru.get_mut (l : Lru K V) (k : K) : Option V × Lru K V := l.get k

/-- `LruCache::put`: update in place (promoting to MRU) returning the old
value, or insert at MRU, silently evicting the LRU entry when full. -/
def Lru.put (l : Lru K V) (k : K) (v : V) : Option V × Lru K V :=
  match l.entries.find? (keyd k) with
  | some p => (some p.2, ⟨l.cap, (k, v) :: l.entries.eraseP (keyd k)⟩)
  | none =>
    if l.entries.length = l.cap then
      (none, ⟨l.cap, (k, v) :: l.entries.dropLast⟩)
    else
      (none, ⟨l.cap, (k, v) :: l.entries⟩)

/-- `LruCache::push`: like `put` but surfacing the displaced pair — the old
pair on an update, the evicted LRU pair on an insertion at capacity. -/
def Lru.push (l : Lru K V) (k : K) (v : V) : Option (K × V) × Lru K V :=
  match l.entries.find? (keyd k) with
  | some p => (some p, ⟨l.cap, (k, v) :: l.entries.eraseP (keyd k)⟩)
  | none =>
    if l.entries.length = l.cap then
      (l.entries.getLast?, ⟨l.cap, (k, v) :: l.entries.dropLast⟩)
    else
      (none, ⟨l.cap, (k, v) :: l.entries⟩)

/-- `LruCache::pop`: remove by key, returning the value. -/
def Lru.pop (l : Lru K V) (k : K) : Option V × Lru K V :=
  match l.entries.find? (keyd k) with
  | some p => (some p.2, ⟨l.cap, l.entries.eraseP (keyd k)⟩)
  | none => (none, l)

/-- `LruCache::pop_entry`: remove by key, returning the stored pair. -/
def Lru.pop_entry (l : Lru K V) (k : K) : Option (K × V) × Lru K V :=
  match l.entries.find? (keyd k) with
  | some p => (some p, ⟨l.cap, l.entries.eraseP (keyd k)⟩)
  | none => (none, l)

/-- `LruCache::pop_lru`: remove and return the least recently used entry. -/
def Lru.pop_lru (l : Lru K V) : Option (K × V) × Lru K V :=
  match l.entries.getLast? with
  | some p => (some p, ⟨l.cap, l.entries.dropLast⟩)
  | none => (none, l)

/-- `LruCache::resize`: set the capacity, discarding LRU-most entries until
the contents fit. -/
def Lru.resize (l : Lru K V) (c : Nat) : Lru K V := ⟨c, l.entries.take c⟩

/-- `LruCache::clear`. -/
def Lru.clear (l : Lru K V) : Lru K V := ⟨l.cap, []⟩

/-- `LruCache::iter`: front-to-back, most recently used first. -/
def Lru.iter (l : Lru K V) : List (K × V) := l.entries

/-- `SlruCache` from `src/slru.rs`: a probationary and a protected LRU
segment. -/
structure Slru (K V : Type) where
  probationary_segment : Lru K V
  protected_segment : Lru K V
deriving DecidableEq

/-- `SlruCache::new(cap)`: probationary gets `max(1, floor(0.2 * cap))`,
protected gets `max(1, cap - probationary_cap)`. -/
def Slru.new (K V : Type) (cap : Nat) : Slru K V :=
  ⟨Lru.new K V (max 1 (cap / 5)), Lru.new K V (max 1 (cap - max 1 (cap / 5)))⟩

/-- `SlruCache::put`. -/
def Slru.put (s : Slru K V) (k : K) (v : V) : Option V × Slru K V :=
  if s.probationary_segment.contains k then
    let r := s.probationary_segment.put k v
    (r.1, ⟨r.2, s.protected_segment⟩)
  else if s.protected_segment.contains k then
    let r := s.protected_segment.put k v
    (r.1, ⟨s.probationary_segment, r.2⟩)
  else
    let r := s.probationary_segment.put k v
    (r.1, ⟨r.2, s.protected_segment⟩)

/-- `SlruCache::push`. -/
def Slru.push (s : Slru K V) (k : K) (v : V) : Option (K × V) × Slru K V :=
  if s.probationary_segment.contains k then
    let r := s.probationary_segment.push k v
    (r.1, ⟨r.2, s.protected_segment⟩)
  else if s.protected_segment.contains k then
    let r := s.protected_segment.push k v
    (r.1, ⟨s.probationary_segment, r.2⟩)
  else
    let r := s.probationary_segment.push k v
    (r.1, ⟨r.2, s.protected_segment⟩)

/-- `SlruCache::get`: promote a probationary hit to protected, pushing a
displaced protected LRU back into probationary (a probationary entry this
displaces in turn is silently dropped), then look the key up in protected. -/
def Slru.get (s : Slru K V) (k : K) : Option V × Slru K V :=
  let pe := s.probationary_segment.pop_entry k
  let s1 : Slru K V :=
    match pe.1 with
    | some kv =>
      let r := s.protected_segment.push kv.1 kv.2
      match r.1 with
      | some xy => ⟨(pe.2.push xy.1 xy.2).2, r.2⟩
      | none => ⟨pe.2, r.2⟩
    | none => ⟨pe.2, s.protected_segment⟩
  let g := s1.protected_segment.get k
  (g.1, ⟨s1.probationary_segment, g.2⟩)

/-- `SlruCache::get_mut`: same state transformation as `get`. -/
def Slru.get_mut (s : Slru K V) (k : K) : Option V × Slru K V := s.get k

/-- `SlruCache::peek`. -/
def Slru.peek (s : Slru K V) (k : K) : Option V :=
  match s.probationary_segment.peek k with
  | some v => some v
  | none => s.protected_segment.peek k

/-- `SlruCache::peek_mut`: same lookup as `peek` in this embedding. -/
def Slru.peek_mut (s : Slru K V) (k : K) : Option V := s.peek k

/-- `SlruCache::peek_lru`. -/
def Slru.peek_lru (s : Slru K V) : Option (K × V) :=
  match s.probationary_segment.peek_lru with
  | some kv => some kv
  | none => s.protected_segment.peek_lru

/-- `SlruCache::peek_lru_if_full`: the probationary LRU, but only when the
probationary segment is exactly at its capacity. -/
def Slru.peek_lru_if_full (s : Slru K V) : Option (K × V) :=
  if s.probationary_segment.len ≠ s.probationary_segment.cap then none
  else s.probationary_segment.peek_lru

/-- `SlruCache::contains`. -/
def Slru.contains (s : Slru K V) (k : K) : Bool :=
  match s.probationary_segment.contains k with
  | true => true
  | false => s.protected_segment.contains k

/-- `SlruCache::pop`. -/
def Slru.pop (s : Slru K V) (k : K) : Option V × Slru K V :=
  match s.probationary_segment.pop k with
  | (some v, p) => (some v, ⟨p, s.protected_segment⟩)
  | (none, _) =>
    let r := s.protected_segment.pop k
    (r.1, ⟨s.probationary_segment, r.2⟩)

/-- `SlruCache::pop_entry`. -/
def Slru.pop_entry (s : Slru K V) (k : K) : Option (K × V) × Slru K V :=
  match s.probationary_segment.pop_entry k with
  | (some kv, p) => (some kv, ⟨p, s.protected_segment⟩)
  | (none, _) =>
    let r := s.protected_segment.pop_entry k
    (r.1, ⟨s.probationary_segment, r.2⟩)

/-- `SlruCache::pop_lru`. -/
def Slru.pop_lru (s : Slru K V) : Option (K × V) × Slru K V :=
  match s.probationary_segment.pop_lru with
  | (some kv, p) => (some kv, ⟨p, s.protected_segment⟩)
  | (none, _) =>
    let r := s.protected_segment.pop_lru
    (r.1, ⟨s.probationary_segment, r.2⟩)

/-- `SlruCache::len`. -/
def Slru.len (s : Slru K V) : Nat :=
  s.probationary_segment.len + s.protected_segment.len

/-- `SlruCache::cap`. -/
def Slru.cap (s : Slru K V) : Nat :=
  s.probationary_segment.cap + s.protected_segment.cap

/-- `SlruCache::resize`: recompute both segment capacities from the new total
and resize each segment. -/
def Slru.resize (s : Slru K V) (cap : Nat) : Slru K V :=
  ⟨s.probationary_segment.resize (max 1 (cap / 5)),
   s.protected_segment.resize (max 1 (cap - max 1 (cap / 5)))⟩

/-- `SlruCache::clear`. -/
def Slru.clear (s : Slru K V) : Slru K V :=
  ⟨s.probationary_segment.clear, s.protected_segment.clear⟩

/-- Modelled from the spec: `SlruCache::iter` is called by
`WTinyLfuCache::iter` in `src/lib.rs` but its definition is missing from
`src/slru.rs`; per the spec's iteration contract it yields the probationary
entries then the protected entries, each segment in its LRU recency order. -/
def Slru.iter (s : Slru K V) : List (K × V) :=
  s.probationary_segment.iter ++ s.protected_segment.iter

/-- Modelled from the spec: the count-min sketch collaborator
(`CountMinSketch16`), consumed only through `increment`, `estimate` and
`reset`; idealised as an exact per-key counter. -/
def sketchEstimate (s : List (K × Nat)) (k : K) : Nat :=
  match s.find? (keyd k) with
  | some p => p.2
  | none => 0

/-- `CountMinSketch16::increment` on the exact-counter model. -/
def sketchIncrement (s : List (K × Nat)) (k : K) : List (K × Nat) :=
  match s.find? (keyd k) with
  | some p => (k, p.2 + 1) :: s.eraseP (keyd k)
  | none => (k, 1) :: s

/-- Modelled from the spec: the Bloom doorkeeper collaborator, consumed only
through `check`, `set` and `clear`; idealised as an exact set of keys. -/
def doorCheck (d : List K) (k : K) : Bool := decide (k ∈ d)

/-- `Bloom::set` on the exact-set model. -/
def doorSet (d : List K) (k : K) : List K := k :: d

/-- `WTinyLfuCache` from `src/lib.rs`. -/
structure WTinyLfu (K V : Type) where
  approximation_sketch : List (K × Nat)
  sample_size : Nat
  sample_counter : Nat
  doorkeeper : List K
  window_cache : Lru K V
  main_cache : Slru K V
deriving DecidableEq

/-- `WTinyLfuCache::new(cap, sample_size)`: the window gets
`max(1, floor(0.01 * cap))`, the main cache `max(1, cap - window_cap)`. -/
def WTinyLfu.new (K V : Type) (cap : Nat) (sample_size : Nat) : WTinyLfu K V :=
  { approximation_sketch := []
    sample_size := sample_size
    sample_counter := 0
    doorkeeper := []
    window_cache := Lru.new K V (max 1 (cap / 100))
    main_cache := Slru.new K V (max 1 (cap - max 1 (cap / 100))) }

/-- `WTinyLfuCache::estimate`: the sketch estimate plus one when the
doorkeeper contains the key. -/
def WTinyLfu.estimate (c : WTinyLfu K V) (k : K) : Nat :=
  sketchEstimate c.approximation_sketch k +
    (if doorCheck c.doorkeeper k then 1 else 0)

/-- `WTinyLfuCache::push`: update in place when present; otherwise push into
the window and, on window eviction, run the admission contest against the
main cache's probationary LRU victim. -/
def WTinyLfu.push (c : WTinyLfu K V) (k : K) (v : V) :
    Option (K × V) × WTinyLfu K V :=
  if c.window_cache.contains k then
    let r := c.window_cache.push k v
    (r.1, { c with window_cache := r.2 })
  else if c.main_cache.contains k then
    let r := c.main_cache.push k v
    (r.1, { c with main_cache := r.2 })
  else
    let r := c.window_cache.push k v
    let c1 := { c with window_cache := r.2 }
    match r.1 with
    | some wv =>
      match c1.main_cache.peek_lru_if_full with
      | some mv =>
        if c1.estimate wv.1 > c1.estimate mv.1 then
          let r2 := c1.main_cache.push wv.1 wv.2
          (r2.1, { c1 with main_cache := r2.2 })
        else
          (some wv, c1)
      | none =>
        let r2 := c1.main_cache.push wv.1 wv.2
        (r2.1, { c1 with main_cache := r2.2 })
    | none => (none, c1)

/-- `WTinyLfuCache::put`: update in place when present, else delegate to
`push` and hide the evicted pair. -/
def WTinyLfu.put (c : WTinyLfu K V) (k : K) (v : V) : Option V × WTinyLfu K V :=
  if c.window_cache.contains k then
    let r := c.window_cache.put k v
    (r.1, { c with window_cache := r.2 })
  else if c.main_cache.contains k then
    let r := c.main_cache.put k v
    (r.1, { c with main_cache := r.2 })
  else
    (none, (c.push k v).2)

/-- `WTinyLfuCache::get`: window first, then main; on a hit record the access
in the estimator, with an aging reset when the sample counter reaches the
sample size. -/
def WTinyLfu.get (c : WTinyLfu K V) (k : K) : Option V × WTinyLfu K V :=
  let vc :=
    match c.window_cache.get k with
    | (some v, w) => (some v, { c with window_cache := w })
    | (none, _) =>
      let r := c.main_cache.get k
      (r.1, { c with main_cache := r.2 })
  if vc.1.isSome then
    if doorCheck vc.2.doorkeeper k then
      let s := sketchIncrement vc.2.approximation_sketch k
      let n := vc.2.sample_counter + 1
      if vc.2.sample_size ≤ n then
        (vc.1, { vc.2 with approximation_sketch := [], doorkeeper := [],
                           sample_counter := 0 })
      else
        (vc.1, { vc.2 with approximation_sketch := s, sample_counter := n })
    else
      (vc.1, { vc.2 with doorkeeper := doorSet vc.2.doorkeeper k })
  else
    vc

/-- `WTinyLfuCache::get_mut`: the same state transformation as `get` (the
source duplicates the body, returning a mutable reference instead). -/
def WTinyLfu.get_mut (c : WTinyLfu K V) (k : K) : Option V × WTinyLfu K V :=
  let vc :=
    match c.window_cache.get_mut k with
    | (some v, w) => (some v, { c with window_cache := w })
    | (none, _) =>
      let r := c.main_cache.get_mut k
      (r.1, { c with main_cache := r.2 })
  if vc.1.isSome then
    if doorCheck vc.2.doorkeeper k then
      let s := sketchIncrement vc.2.approximation_sketch k
      let n := vc.2.sample_counter + 1
      if vc.2.sample_size ≤ n then
        (vc.1, { vc.2 with approximation_sketch := [], doorkeeper := [],
                           sample_counter := 0 })
      else
        (vc.1, { vc.2 with approximation_sketch := s, sample_counter := n })
    else
      (vc.1, { vc.2 with doorkeeper := doorSet vc.2.doorkeeper k })
  else
    vc

/-- `WTinyLfuCache::peek`. -/
def WTinyLfu.peek (c : WTinyLfu K V) (k : K) : Option V :=
  match c.window_cache.peek k with
  | some v => some v
  | none => c.main_cache.peek k

/-- `WTinyLfuCache::peek_mut`: same lookup as `peek` in this embedding. -/
def WTinyLfu.peek_mut (c : WTinyLfu K V) (k : K) : Option V :=
  match c.window_cache.peek_mut k with
  | some v => some v
  | none => c.main_cache.peek_mut k

/-- `WTinyLfuCache::contains`. -/
def WTinyLfu.contains (c : WTinyLfu K V) (k : K) : Bool :=
  match c.window_cache.contains k with
  | true => true
  | false => c.main_cache.contains k

/-- `WTinyLfuCache::pop`. -/
def WTinyLfu.pop (c : WTinyLfu K V) (k : K) : Option V × WTinyLfu K V :=
  match c.window_cache.pop k with
  | (some v, w) => (some v, { c with window_cache := w })
  | (none, _) =>
    let r := c.main_cache.pop k
    (r.1, { c with main_cache := r.2 })

/-- `WTinyLfuCache::pop_entry`. -/
def WTinyLfu.pop_entry (c : WTinyLfu K V) (k : K) :
    Option (K × V) × WTinyLfu K V :=
  match c.window_cache.pop_entry k with
  | (some kv, w) => (some kv, { c with window_cache := w })
  | (none, _) =>
    let r := c.main_cache.pop_entry k
    (r.1, { c with main_cache := r.2 })

/-- `WTinyLfuCache::pop_lru_window`. -/
def WTinyLfu.pop_lru_window (c : WTinyLfu K V) :
    Option (K × V) × WTinyLfu K V :=
  let r := c.window_cache.pop_lru
  (r.1, { c with window_cache := r.2 })

/-- `WTinyLfuCache::pop_lru_main`. -/
def WTinyLfu.pop_lru_main (c : WTinyLfu K V) : Option (K × V) × WTinyLfu K V :=
  let r := c.main_cache.pop_lru
  (r.1, { c with main_cache := r.2 })

/-- `WTinyLfuCache::peek_lru_window`. -/
def WTinyLfu.peek_lru_window (c : WTinyLfu K V) : Option (K × V) :=
  c.window_cache.peek_lru

/-- `WTinyLfuCache::peek_lru_main`. -/
def WTinyLfu.peek_lru_main (c : WTinyLfu K V) : Option (K × V) :=
  c.main_cache.peek_lru

/-- `WTinyLfuCache::len`. -/
def WTinyLfu.len (c : WTinyLfu K V) : Nat :=
  c.window_cache.len + c.main_cache.len

/-- `WTinyLfuCache::cap`. -/
def WTinyLfu.cap (c : WTinyLfu K V) : Nat :=
  c.window_cache.cap + c.main_cache.cap

/-- `WTinyLfuCache::is_empty`. -/
def WTinyLfu.is_empty (c : WTinyLfu K V) : Bool := decide (c.len = 0)

/-- `WTinyLfuCache::resize`. -/
def WTinyLfu.resize (c : WTinyLfu K V) (cap : Nat) : WTinyLfu K V :=
  { c with window_cache := c.window_cache.resize (max 1 (cap / 100)),
           main_cache := c.main_cache.resize (max 1 (cap - max 1 (cap / 100))) }

/-- `WTinyLfuCache::clear`: clears the three sub-caches only; the estimator
state is untouched. -/
def WTinyLfu.clear (c : WTinyLfu K V) : WTinyLfu K V :=
  { c with window_cache := c.window_cache.clear,
           main_cache := c.main_cache.clear }

/-- `WTinyLfuCache::iter`: window entries chained with main entries. -/
def WTinyLfu.iter (c : WTinyLfu K V) : List (K × V) :=
  c.window_cache.iter ++ c.main_cache.iter

/-- The public mutating operations of the façade, for reasoning about
arbitrary operation sequences.  The read-only operations (`peek`, `peek_mut`,
`contains`, `len`, `cap`, `is_empty`, `iter`, `peek_lru_window`,
`peek_lru_main`) do not change the state and are omitted. -/
inductive Op (K V : Type) where
  | put : K → V → Op K V
  | push : K → V → Op K V
  | get : K → Op K V
  | get_mut : K → Op K V
  | pop : K → Op K V
  | pop_entry : K → Op K V
  | pop_lru_window : Op K V
  | pop_lru_main : Op K V
  | resize : Nat → Op K V
  | clear : Op K V

/-- One public operation applied to a cache state, discarding the returned
value. -/
def applyOp (c : WTinyLfu K V) : Op K V → WTinyLfu K V
  | .put k v => (c.put k v).2
  | .push k v => (c.push k v).2
  | .get k => (c.get k).2
  | .get_mut k => (c.get_mut k).2
  | .pop k => (c.pop k).2
  | .pop_entry k => (c.pop_entry k).2
  | .pop_lru_window => c.pop_lru_window.2
  | .pop_lru_main => c.pop_lru_main.2
  | .resize n => c.resize n
  | .clear => c.clear

/-- A sequence of public operations applied in order. -/
def applyOps (c : WTinyLfu K V) : List (Op K V) → WTinyLfu K V
  | [] => c
  | op :: rest => applyOps (applyOp c op) rest

/-- A cache state reachable from a freshly constructed cache by public
operations. -/
def Reachable (c : WTinyLfu K V) : Prop :=
  ∃ cap sample ops, c = applyOps (WTinyLfu.new K V cap sample) ops

/-- Keys currently stored in an LRU, front (MRU) first. -/
def Lru.keys (l : Lru K V) : List K := l.entries.map Prod.fst

/-- Health of a single LRU: no duplicate keys, within capacity, and a
positive capacity (the Rust capacity is a `NonZeroUsize`). -/
def LruOk (l : Lru K V) : Prop :=
  l.keys.Nodup ∧ l.entries.length ≤ l.cap ∧ 1 ≤ l.cap

/-- Key-set disjointness of two LRUs. -/
def LruDisj (a b : Lru K V) : Prop := ∀ k, k ∈ a.keys → k ∉ b.keys

/-- The façade's structural invariant: each sub-cache is healthy and the
three key sets are pairwise disjoint. -/
def Inv (c : WTinyLfu K V) : Prop :=
  LruOk c.window_cache ∧
  LruOk c.main_cache.probationary_segment ∧
  LruOk c.main_cache.protected_segment ∧
  LruDisj c.window_cache c.main_cache.probationary_segment ∧
  LruDisj c.window_cache c.main_cache.protected_segment ∧
  LruDisj c.main_cache.probationary_segment c.main_cache.protected_segment

/-- Health of the segmented main cache on its own. -/
def SlruOk (s : Slru K V) : Prop :=
  LruOk s.probationary_segment ∧ LruOk s.protected_segment ∧
  LruDisj s.probationary_segment s.protected_segment

/-- A concrete cache used to exercise the admission contest: the window holds
key 5, the probationary segment key 2, the protected segment key 3, and the
doorkeeper remembers key 5. -/
def c1state : WTinyLfu Nat Nat :=
  ⟨[], 10, 0, [5], ⟨1, [(5, 50)]⟩, ⟨⟨1, [(2, 20)]⟩, ⟨1, [(3, 30)]⟩⟩⟩

/-- A concrete cache used to exercise access recording: key 1 sits in the
window and in the doorkeeper, with sample size 2. -/
def c2state : WTinyLfu Nat Nat :=
  ⟨[], 2, 0, [1], ⟨1, [(1, 10)]⟩, ⟨⟨1, []⟩, ⟨1, []⟩⟩⟩

/-- A concrete SLRU used to exercise the promotion rule: key 1 probationary,
key 2 protected, both segments at capacity. -/
def c4state : Slru Nat Nat := ⟨⟨1, [(1, 10)]⟩, ⟨1, [(2, 20)]⟩⟩

/-- A concrete cache reached by two pushes from a fresh cache of capacity 3. -/
def c8state : WTinyLfu Nat Nat :=
  applyOps (WTinyLfu.new Nat Nat 3 10) [Op.push 1 11, Op.push 2 22]

/-- A concrete SLRU used to exercise key-set preservation of `get`. -/
def c9state : Slru Nat Nat := ⟨⟨2, [(1, 10), (4, 40)]⟩, ⟨1, [(2, 20)]⟩⟩

theorem keyd_eq_true {k : K} {p : K × V} : keyd k p = true ↔ p.1 = k := by
  simp [keyd]

theorem find?_keyd_eq_none {L : List (K × V)} {k : K} :
    L.find? (keyd k) = none ↔ k ∉ L.map Prod.fst := by
  rw [List.find?_eq_none]
  simp only [keyd, decide_eq_true_eq, List.mem_map]
  constructor
  · rintro h ⟨p, hp, rfl⟩
    exact h p hp rfl
  · intro h p hp hpk
    exact h ⟨p, hp, hpk⟩

theorem find?_keyd_eq_some {L : List (K × V)} {k : K} {p : K × V}
    (h : L.find? (keyd k) = some p) : p.1 = k ∧ p ∈ L := by
  refine ⟨?_, List.mem_of_find?_eq_some h⟩
  have := List.find?_some h
  simpa [keyd] using this

theorem keys_eraseP_keyd (L : List (K × V)) (k : K) :
    (L.eraseP (keyd k)).map Prod.fst = (L.map Prod.fst).erase k := by
  rw [List.erase_eq_eraseP', List.eraseP_map]
  rfl

theorem Lru.lru_contains_iff {l : Lru K V} {k : K} :
    l.contains k = true ↔ k ∈ l.keys := by
  unfold Lru.contains Lru.keys
  rw [Option.isSome_iff_exists]
  constructor
  · rintro ⟨p, hp⟩
    obtain ⟨h1, h2⟩ := find?_keyd_eq_some hp
    exact h1 ▸ List.mem_map_of_mem Prod.fst h2
  · intro hk
    cases hfind : l.entries.find? (keyd k) with
    | none => exact absurd hk (find?_keyd_eq_none.mp hfind)
    | some p => exact ⟨p, rfl⟩

theorem Lru.contains_eq_false {l : Lru K V} {k : K} :
    l.contains k = false ↔ k ∉ l.keys := by
  rw [← Bool.not_eq_true, not_iff_not]
  exact Lru.lru_contains_iff

theorem Lru.get_cap (l : Lru K V) (k : K) : (l.get k).2.cap = l.cap := by
  unfold Lru.get
  split <;> rfl

theorem cons_erase_keys {KS : List K} {k x : K} (h : KS.Nodup) (hk : k ∈ KS) :
    (k :: KS.erase k).Nodup ∧ (x ∈ k :: KS.erase k ↔ x ∈ KS) := by
  constructor
  · exact List.Nodup.cons h.not_mem_erase (h.erase k)
  · rw [List.mem_cons, h.mem_erase_iff]
    constructor
    · rintro (rfl | ⟨_, hx⟩)
      · exact hk
      · exact hx
    · intro hx
      by_cases hxk : x = k
      · exact Or.inl hxk
      · exact Or.inr ⟨hxk, hx⟩

theorem Lru.get_state {l : Lru K V} {k : K} (h : l.keys.Nodup) :
    (l.get k).2.keys.Nodup ∧ (l.get k).2.entries.length = l.entries.length ∧
    ∀ x, x ∈ (l.get k).2.keys ↔ x ∈ l.keys := by
  unfold Lru.get
  cases hf : l.entries.find? (keyd k) with
  | none => exact ⟨h, rfl, fun x => Iff.rfl⟩
  | some p =>
    obtain ⟨hpk, hpm⟩ := find?_keyd_eq_some hf
    have hk : k ∈ l.keys := hpk ▸ List.mem_map_of_mem Prod.fst hpm
    have hlen : (l.entries.eraseP (keyd k)).length = l.entries.length - 1 :=
      List.length_eraseP_of_mem hpm (by simp [keyd, hpk])
    have hpos : 1 ≤ l.entries.length := List.length_pos_of_mem hpm
    have hkeys : (⟨l.cap, p :: l.entries.eraseP (keyd k)⟩ : Lru K V).keys
        = k :: l.keys.erase k := by
      simp [Lru.keys, keys_eraseP_keyd, hpk]
    refine ⟨?_, ?_, ?_⟩
    · rw [hkeys]
      exact (cons_erase_keys (x := k) h hk).1
    · simp only [List.length_cons, hlen]
      omega
    · intro x
      rw [hkeys]
      exact (cons_erase_keys h hk).2

theorem Lru.put_cap (l : Lru K V) (k : K) (v : V) : (l.put k v).2.cap = l.cap := by
  unfold Lru.put
  split
  · rfl
  · split <;> rfl

theorem Lru.put_state_of_contains {l : Lru K V} {k : K} {v : V}
    (hc : l.contains k = true) (h : l.keys.Nodup) :
    (l.put k v).2.keys.Nodup ∧
    (l.put k v).2.entries.length = l.entries.length ∧
    ∀ x, x ∈ (l.put k v).2.keys ↔ x ∈ l.keys := by
  have hk : k ∈ l.keys := Lru.lru_contains_iff.mp hc
  unfold Lru.put
  cases hf : l.entries.find? (keyd k) with
  | none =>
    exact absurd hk (find?_keyd_eq_none.mp hf)
  | some p =>
    obtain ⟨hpk, hpm⟩ := find?_keyd_eq_some hf
    have hlen : (l.entries.eraseP (keyd k)).length = l.entries.length - 1 :=
      List.length_eraseP_of_mem hpm (by simp [keyd, hpk])
    have hpos : 1 ≤ l.entries.length := List.length_pos_of_mem hpm
    have hkeys : (⟨l.cap, (k, v) :: l.entries.eraseP (keyd k)⟩ : Lru K V).keys
        = k :: l.keys.erase k := by
      simp [Lru.keys, keys_eraseP_keyd]
    refine ⟨?_, ?_, ?_⟩
    · rw [hkeys]
      exact (cons_erase_keys (x := k) h hk).1
    · simp only [List.length_cons, hlen]
      omega
    · intro x
      rw [hkeys]
      exact (cons_erase_keys h hk).2

theorem Lru.put_state_of_not_contains {l : Lru K V} {k : K} {v : V}
    (hc : l.contains k = false) (h : LruOk l) :
    (l.put k v).2.keys.Nodup ∧ (l.put k v).2.entries.length ≤ l.cap ∧
    ∀ x, x ∈ (l.put k v).2.keys → x = k ∨ x ∈ l.keys := by
  obtain ⟨hnd, hle, hcap⟩ := h
  have hk : k ∉ l.keys := Lru.contains_eq_false.mp hc
  have hf : l.entries.find? (keyd k) = none := find?_keyd_eq_none.mpr hk
  unfold Lru.put
  rw [hf]
  by_cases hfull : l.entries.length = l.cap
  · simp only [if_pos hfull]
    have hdk : (l.entries.dropLast.map Prod.fst) = l.keys.dropLast := by
      simp [Lru.keys]
    have hsub : l.keys.dropLast ⊆ l.keys := List.dropLast_subset l.keys
    constructor
    · simp only [Lru.keys, List.map_cons, hdk]
      exact List.Nodup.cons (fun hmem => hk (hsub hmem))
        (hnd.sublist (List.dropLast_sublist l.keys))
    constructor
    · simp only [List.length_cons, List.length_dropLast]
      omega
    · intro x hx
      simp only [Lru.keys, List.map_cons, hdk, List.mem_cons] at hx
      rcases hx with rfl | hx
      · exact Or.inl rfl
      · exact Or.inr (hsub hx)
  · simp only [if_neg hfull]
    constructor
    · simpa [Lru.keys] using List.Nodup.cons hk hnd
    constructor
    · simp only [List.length_cons]
      omega
    · intro x hx
      simp only [Lru.keys, List.map_cons, List.mem_cons] at hx
      exact hx

theorem Lru.push_cap (l : Lru K V) (k : K) (v : V) :
    (l.push k v).2.cap = l.cap := by
  unfold Lru.push
  split
  · rfl
  · split <;> rfl

theorem Lru.push_eq_put_snd (l : Lru K V) (k : K) (v : V) :
    (l.push k v).2 = (l.put k v).2 := by
  unfold Lru.push Lru.put
  split
  · rfl
  · split <;> rfl

theorem Lru.push_evict_of_not_contains {l : Lru K V} {k : K} {v : V} {e : K × V}
    (hc : l.contains k = false) (h : LruOk l)
    (he : (l.push k v).1 = some e) :
    e.1 ∈ l.keys ∧ e.1 ∉ (l.push k v).2.keys ∧ e.1 ≠ k := by
  obtain ⟨hnd, _, _⟩ := h
  have hk : k ∉ l.keys := Lru.contains_eq_false.mp hc
  have hf : l.entries.find? (keyd k) = none := find?_keyd_eq_none.mpr hk
  unfold Lru.push at he ⊢
  rw [hf] at he ⊢
  by_cases hfull : l.entries.length = l.cap
  · simp only [if_pos hfull] at he ⊢
    have hmem : e ∈ l.entries := List.mem_of_getLast?_eq_some he
    have hek : e.1 ∈ l.keys := List.mem_map_of_mem Prod.fst hmem
    obtain ⟨ys, hys⟩ := List.getLast?_eq_some_iff.mp he
    have hkeys : l.keys = (ys.map Prod.fst) ++ [e.1] := by
      simp [Lru.keys, hys]
    have hdrop : l.entries.dropLast = ys := by
      simp [hys]
    refine ⟨hek, ?_, ?_⟩
    · simp only [Lru.keys, List.map_cons, hdrop, List.mem_cons]
      rintro (hek1 | hek2)
      · exact hk (hek1 ▸ hek)
      · have : l.keys.Nodup := hnd
        rw [hkeys] at this
        have := List.disjoint_of_nodup_append this
        exact this hek2 (List.mem_singleton_self _)
    · intro hek1
      exact hk (hek1 ▸ hek)
  · simp only [if_neg hfull] at he
    exact absurd he (by simp)

theorem Lru.push_state_of_not_contains {l : Lru K V} {k : K} {v : V}
    (hc : l.contains k = false) (h : LruOk l) :
    (l.push k v).2.keys.Nodup ∧ (l.push k v).2.entries.length ≤ l.cap ∧
    (∀ x, x ∈ (l.push k v).2.keys → x = k ∨ x ∈ l.keys) ∧
    k ∈ (l.push k v).2.keys := by
  rw [Lru.push_eq_put_snd]
  obtain ⟨h1, h2, h3⟩ := Lru.put_state_of_not_contains hc h
  refine ⟨h1, h2, h3, ?_⟩
  have hk : k ∉ l.keys := Lru.contains_eq_false.mp hc
  have hf : l.entries.find? (keyd k) = none := find?_keyd_eq_none.mpr hk
  unfold Lru.put
  rw [hf]
  by_cases hfull : l.entries.length = l.cap
  · simp [if_pos hfull, Lru.keys]
  · simp [if_neg hfull, Lru.keys]

theorem Lru.push_state_of_contains {l : Lru K V} {k : K} {v : V}
    (hc : l.contains k = true) (h : l.keys.Nodup) :
    (l.push k v).2.keys.Nodup ∧
    (l.push k v).2.entries.length = l.entries.length ∧
    ∀ x, x ∈ (l.push k v).2.keys ↔ x ∈ l.keys := by
  rw [Lru.push_eq_put_snd]
  exact Lru.put_state_of_contains hc h

theorem Lru.pop_cap (l : Lru K V) (k : K) : (l.pop k).2.cap = l.cap := by
  unfold Lru.pop
  split <;> rfl

theorem Lru.pop_entry_cap (l : Lru K V) (k : K) :
    (l.pop_entry k).2.cap = l.cap := by
  unfold Lru.pop_entry
  split <;> rfl

theorem Lru.pop_lru_cap (l : Lru K V) : l.pop_lru.2.cap = l.cap := by
  unfold Lru.pop_lru
  split <;> rfl

theorem Lru.lru_pop_state {l : Lru K V} {k : K} (h : l.keys.Nodup) :
    (l.pop k).2.keys.Nodup ∧ (l.pop k).2.entries.length ≤ l.entries.length ∧
    ∀ x, x ∈ (l.pop k).2.keys → x ∈ l.keys := by
  unfold Lru.pop
  cases hf : l.entries.find? (keyd k) with
  | none => exact ⟨h, le_refl _, fun x hx => hx⟩
  | some p =>
    refine ⟨?_, ?_, ?_⟩
    · simp only [Lru.keys, keys_eraseP_keyd]
      exact h.erase k
    · exact List.length_eraseP_le l.entries
    · intro x hx
      simp only [Lru.keys, keys_eraseP_keyd] at hx
      exact List.erase_subset _ _ hx

theorem Lru.pop_entry_snd (l : Lru K V) (k : K) :
    (l.pop_entry k).2 = (l.pop k).2 := by
  unfold Lru.pop_entry Lru.pop
  split <;> rfl

theorem Lru.lru_pop_lru_state {l : Lru K V} (h : l.keys.Nodup) :
    l.pop_lru.2.keys.Nodup ∧ l.pop_lru.2.entries.length ≤ l.entries.length ∧
    ∀ x, x ∈ l.pop_lru.2.keys → x ∈ l.keys := by
  unfold Lru.pop_lru
  cases hg : l.entries.getLast? with
  | none => exact ⟨h, le_refl _, fun x hx => hx⟩
  | some p =>
    refine ⟨?_, ?_, ?_⟩
    · simp only [Lru.keys, List.map_dropLast]
      exact h.sublist (List.dropLast_sublist l.keys)
    · exact (List.dropLast_sublist l.entries).length_le
    · intro x hx
      simp only [Lru.keys, List.map_dropLast] at hx
      exact List.dropLast_subset l.keys hx

theorem Lru.pop_entry_eq_of_some {l : Lru K V} {k : K} {p : K × V}
    (hf : l.entries.find? (keyd k) = some p) :
    l.pop_entry k = (some p, ⟨l.cap, l.entries.eraseP (keyd k)⟩) := by
  unfold Lru.pop_entry
  rw [hf]

theorem Lru.pop_entry_eq_of_none {l : Lru K V} {k : K}
    (hf : l.entries.find? (keyd k) = none) : l.pop_entry k = (none, l) := by
  unfold Lru.pop_entry
  rw [hf]

theorem Lru.push_eq_of_some {l : Lru K V} {k : K} {v : V} {p : K × V}
    (hf : l.entries.find? (keyd k) = some p) :
    l.push k v = (some p, ⟨l.cap, (k, v) :: l.entries.eraseP (keyd k)⟩) := by
  unfold Lru.push
  rw [hf]

theorem Lru.push_eq_of_none_full {l : Lru K V} {k : K} {v : V}
    (hf : l.entries.find? (keyd k) = none)
    (hfull : l.entries.length = l.cap) :
    l.push k v = (l.entries.getLast?, ⟨l.cap, (k, v) :: l.entries.dropLast⟩) := by
  unfold Lru.push
  rw [hf, if_pos hfull]

theorem Lru.push_eq_of_none_notfull {l : Lru K V} {k : K} {v : V}
    (hf : l.entries.find? (keyd k) = none)
    (hfull : l.entries.length ≠ l.cap) :
    l.push k v = (none, ⟨l.cap, (k, v) :: l.entries⟩) := by
  unfold Lru.push
  rw [hf, if_neg hfull]

theorem Lru.get_eq_of_some {l : Lru K V} {k : K} {p : K × V}
    (hf : l.entries.find? (keyd k) = some p) :
    l.get k = (some p.2, ⟨l.cap, p :: l.entries.eraseP (keyd k)⟩) := by
  unfold Lru.get
  rw [hf]

theorem Lru.get_eq_of_none {l : Lru K V} {k : K}
    (hf : l.entries.find? (keyd k) = none) : l.get k = (none, l) := by
  unfold Lru.get
  rw [hf]

theorem Lru.get_head {c : Nat} {k : K} {v : V} {t : List (K × V)} :
    (⟨c, (k, v) :: t⟩ : Lru K V).get k = (some v, ⟨c, (k, v) :: t⟩) := by
  have hf : ((k, v) :: t).find? (keyd k) = some (k, v) :=
    List.find?_cons_of_pos _ (by simp [keyd])
  rw [Lru.get_eq_of_some hf]
  simp [List.eraseP_cons_of_pos, keyd]

theorem Lru.lru_resize_state {l : Lru K V} {n : Nat} (h : l.keys.Nodup) :
    (l.resize n).keys.Nodup ∧ (l.resize n).entries.length ≤ n ∧
    (l.resize n).cap = n ∧ ∀ x, x ∈ (l.resize n).keys → x ∈ l.keys := by
  unfold Lru.resize
  refine ⟨?_, ?_, rfl, ?_⟩
  · simp only [Lru.keys, List.map_take]
    exact h.sublist (List.take_sublist n l.keys)
  · simpa using List.length_take_le n l.entries
  · intro x hx
    simp only [Lru.keys, List.map_take] at hx
    exact List.take_subset n l.keys hx

theorem bool_eq_of_iff {a b : Bool} (h : a = true ↔ b = true) : a = b := by
  cases a <;> cases b <;> simp_all

theorem Slru.slru_contains_eq (s : Slru K V) (k : K) :
    s.contains k =
      (s.probationary_segment.contains k || s.protected_segment.contains k) := by
  unfold Slru.contains
  cases s.probationary_segment.contains k <;> rfl

theorem Slru.slru_contains_iff {s : Slru K V} {k : K} :
    s.contains k = true ↔
      k ∈ s.probationary_segment.keys ∨ k ∈ s.protected_segment.keys := by
  rw [Slru.slru_contains_eq, Bool.or_eq_true, Lru.lru_contains_iff, Lru.lru_contains_iff]

theorem keys_last_split {l : Lru K V} {xy : K × V}
    (h : l.entries.getLast? = some xy) :
    l.keys = l.entries.dropLast.map Prod.fst ++ [xy.1] := by
  have h1 : l.keys.getLast? = some xy.1 := by
    simp [Lru.keys, List.getLast?_map, h]
  obtain ⟨ys, hys⟩ := List.getLast?_eq_some_iff.mp h1
  have h2 : l.keys.dropLast = ys := by
    rw [hys]
    exact List.dropLast_concat
  rw [hys, ← h2]
  simp [Lru.keys, List.map_dropLast]

theorem Slru.get_preserves {s : Slru K V} (k : K) (h : SlruOk s) :
    SlruOk (s.get k).2 ∧
    (∀ j, (s.get k).2.contains j = s.contains j) ∧
    (s.get k).2.probationary_segment.cap = s.probationary_segment.cap ∧
    (s.get k).2.protected_segment.cap = s.protected_segment.cap ∧
    (s.get k).2.len = s.len := by
  obtain ⟨⟨hPnd, hPle, hPcap⟩, ⟨hQnd, hQle, hQcap⟩, hdisj⟩ := h
  by_cases hPk : s.probationary_segment.contains k = true
  · -- hit in probationary: the promotion path
    have hkP : k ∈ s.probationary_segment.keys := Lru.lru_contains_iff.mp hPk
    have hkQ : k ∉ s.protected_segment.keys := hdisj k hkP
    obtain ⟨p, hf⟩ : ∃ p, s.probationary_segment.entries.find? (keyd k) = some p := by
      have := Lru.lru_contains_iff.mpr hkP
      unfold Lru.contains at this
      exact Option.isSome_iff_exists.mp this
    obtain ⟨p1, pv⟩ := p
    obtain ⟨hpk, hpm⟩ := find?_keyd_eq_some hf
    simp only at hpk
    rw [hpk] at hf hpm
    have hfQ : s.protected_segment.entries.find? (keyd k) = none :=
      find?_keyd_eq_none.mpr hkQ
    have hPpos : 1 ≤ s.probationary_segment.entries.length :=
      List.length_pos_of_mem hpm
    have hPerasedlen : (s.probationary_segment.entries.eraseP (keyd k)).length
        = s.probationary_segment.entries.length - 1 :=
      List.length_eraseP_of_mem hpm (by simp [keyd])
    have hPerasedkeys : (s.probationary_segment.entries.eraseP (keyd k)).map Prod.fst
        = s.probationary_segment.keys.erase k := keys_eraseP_keyd _ k
    by_cases hQfull : s.protected_segment.entries.length = s.protected_segment.cap
    · -- protected is full: its LRU is displaced back into probationary
      have hQpos : 1 ≤ s.protected_segment.entries.length := by omega
      have hQne : s.protected_segment.entries ≠ [] := by
        intro h0
        rw [h0] at hQpos
        simp at hQpos
      obtain ⟨xy, hlast⟩ : ∃ xy, s.protected_segment.entries.getLast? = some xy :=
        Option.isSome_iff_exists.mp (by simp [List.getLast?_isSome, hQne])
      have hxyQ : xy.1 ∈ s.protected_segment.keys :=
        List.mem_map_of_mem Prod.fst (List.mem_of_getLast?_eq_some hlast)
      have hxyP : xy.1 ∉ s.probationary_segment.keys := fun hmem =>
        hdisj xy.1 hmem hxyQ
      have hxyP' : xy.1 ∉ (s.probationary_segment.entries.eraseP (keyd k)).map Prod.fst := by
        rw [hPerasedkeys]
        exact fun hmem => hxyP (List.erase_subset _ _ hmem)
      have hfP' : ((⟨s.probationary_segment.cap,
          s.probationary_segment.entries.eraseP (keyd k)⟩ : Lru K V)).entries.find?
            (keyd xy.1) = none :=
        find?_keyd_eq_none.mpr hxyP'
      have hnotfull : ((⟨s.probationary_segment.cap,
          s.probationary_segment.entries.eraseP (keyd k)⟩ : Lru K V)).entries.length
          ≠ (⟨s.probationary_segment.cap,
          s.probationary_segment.entries.eraseP (keyd k)⟩ : Lru K V).cap := by
        show (s.probationary_segment.entries.eraseP (keyd k)).length
          ≠ s.probationary_segment.cap
        omega
      have hsplit : s.protected_segment.keys
          = s.protected_segment.entries.dropLast.map Prod.fst ++ [xy.1] :=
        keys_last_split hlast
      have hdropnd : (s.protected_segment.entries.dropLast.map Prod.fst).Nodup := by
        have := hQnd
        rw [hsplit] at this
        exact (List.nodup_append.mp this).1
      have hxydrop : xy.1 ∉ s.protected_segment.entries.dropLast.map Prod.fst := by
        have := hQnd
        rw [hsplit] at this
        have hd := List.disjoint_of_nodup_append this
        exact fun hmem => hd hmem (List.mem_singleton_self _)
      have hkdrop : k ∉ s.protected_segment.entries.dropLast.map Prod.fst := by
        intro hmem
        apply hkQ
        rw [hsplit]
        exact List.mem_append_left _ hmem
      have hmemQ : ∀ j, j ∈ s.protected_segment.keys ↔
          j ∈ s.protected_segment.entries.dropLast.map Prod.fst ∨ j = xy.1 := by
        intro j
        rw [hsplit]
        simp
      have hxyk : xy.1 ≠ k := fun h0 => hkQ (h0 ▸ hxyQ)
      have hfinal : (s.get k).2 =
          ⟨⟨s.probationary_segment.cap,
            (xy.1, xy.2) :: s.probationary_segment.entries.eraseP (keyd k)⟩,
           ⟨s.protected_segment.cap,
            (k, pv) :: s.protected_segment.entries.dropLast⟩⟩ := by
        simp only [Slru.get, Lru.pop_entry_eq_of_some hf,
          Lru.push_eq_of_none_full hfQ hQfull, hlast,
          Lru.push_eq_of_none_notfull hfP' hnotfull, Lru.get_head]
      rw [hfinal]
      refine ⟨⟨⟨?_, ?_, hPcap⟩, ⟨?_, ?_, hQcap⟩, ?_⟩, ?_, rfl, rfl, ?_⟩
      · -- probationary nodup
        simp only [Lru.keys, List.map_cons, hPerasedkeys]
        exact List.Nodup.cons (by rw [hPerasedkeys] at hxyP'; exact hxyP')
          (hPnd.erase k)
      · -- probationary length
        simp only [List.length_cons]
        omega
      · -- protected nodup
        simp only [Lru.keys, List.map_cons, List.map_dropLast]
        exact List.Nodup.cons (by
          rw [← List.map_dropLast]
          exact hkdrop) (by rw [← List.map_dropLast]; exact hdropnd)
      · -- protected length
        simp only [List.length_cons, List.length_dropLast]
        omega
      · -- disjointness
        intro j hj
        simp only [Lru.keys, List.map_cons, hPerasedkeys, List.mem_cons] at hj
        simp only [Lru.keys, List.map_cons, List.map_dropLast, List.mem_cons]
        rcases hj with rfl | hj
        · push_neg
          exact ⟨hxyk, by rw [← List.map_dropLast]; exact hxydrop⟩
        · obtain ⟨hjk, hjP⟩ := hPnd.mem_erase_iff.mp hj
          push_neg
          refine ⟨hjk, ?_⟩
          rw [← List.map_dropLast]
          intro hmem
          exact hdisj j hjP (by rw [hsplit]; exact List.mem_append_left _ hmem)
      · -- key set preserved
        intro j
        apply bool_eq_of_iff
        rw [Slru.slru_contains_iff, Slru.slru_contains_iff]
        simp only [Lru.keys, List.map_cons, hPerasedkeys, List.map_dropLast,
          List.mem_cons]
        rw [← Lru.keys]
        constructor
        · rintro ((rfl | hj) | (rfl | hj))
          · exact Or.inr hxyQ
          · exact Or.inl (hPnd.mem_erase_iff.mp hj).2
          · exact Or.inl hkP
          · exact Or.inr ((hmemQ j).mpr (Or.inl (by
              rw [← List.map_dropLast] at hj
              exact hj)))
        · rintro (hj | hj)
          · by_cases hjk : j = k
            · exact Or.inr (Or.inl hjk)
            · exact Or.inl (Or.inr (hPnd.mem_erase_iff.mpr ⟨hjk, hj⟩))
          · rcases (hmemQ j).mp hj with hj' | rfl
            · exact Or.inr (Or.inr (by rw [← List.map_dropLast]; exact hj'))
            · exact Or.inl (Or.inl rfl)
      · -- total length preserved
        simp only [Slru.len, Lru.len, List.length_cons, List.length_dropLast]
        omega
    · -- protected not yet full: plain promotion
      have hQlen : s.protected_segment.entries.length < s.protected_segment.cap := by
        omega
      have hfinal : (s.get k).2 =
          ⟨⟨s.probationary_segment.cap,
            s.probationary_segment.entries.eraseP (keyd k)⟩,
           ⟨s.protected_segment.cap, (k, pv) :: s.protected_segment.entries⟩⟩ := by
        simp only [Slru.get, Lru.pop_entry_eq_of_some hf,
          Lru.push_eq_of_none_notfull hfQ hQfull, Lru.get_head]
      rw [hfinal]
      refine ⟨⟨⟨?_, ?_, hPcap⟩, ⟨?_, ?_, hQcap⟩, ?_⟩, ?_, rfl, rfl, ?_⟩
      · simp only [Lru.keys, hPerasedkeys]
        exact hPnd.erase k
      · show (s.probationary_segment.entries.eraseP (keyd k)).length
          ≤ s.probationary_segment.cap
        omega
      · simp only [Lru.keys, List.map_cons]
        exact List.Nodup.cons hkQ hQnd
      · simp only [List.length_cons]
        omega
      · intro j hj
        simp only [Lru.keys, hPerasedkeys] at hj
        obtain ⟨hjk, hjP⟩ := hPnd.mem_erase_iff.mp hj
        simp only [Lru.keys, List.map_cons, List.mem_cons]
        push_neg
        exact ⟨hjk, hdisj j hjP⟩
      · intro j
        apply bool_eq_of_iff
        rw [Slru.slru_contains_iff, Slru.slru_contains_iff]
        simp only [Lru.keys, hPerasedkeys, List.map_cons, List.mem_cons]
        rw [← Lru.keys, ← Lru.keys]
        constructor
        · rintro (hj | (rfl | hj))
          · exact Or.inl (hPnd.mem_erase_iff.mp hj).2
          · exact Or.inl hkP
          · exact Or.inr hj
        · rintro (hj | hj)
          · by_cases hjk : j = k
            · exact Or.inr (Or.inl hjk)
            · exact Or.inl (hPnd.mem_erase_iff.mpr ⟨hjk, hj⟩)
          · exact Or.inr (Or.inr hj)
      · simp only [Slru.len, Lru.len, List.length_cons]
        omega
  · -- miss in probationary: only the protected segment is touched
    have hf : s.probationary_segment.entries.find? (keyd k) = none := by
      rw [find?_keyd_eq_none]
      exact fun hmem => hPk (Lru.lru_contains_iff.mpr hmem)
    obtain ⟨hnd', hlen', hiff'⟩ := Lru.get_state (l := s.protected_segment)
      (k := k) hQnd
    have hfinal : (s.get k).2 =
        ⟨s.probationary_segment, (s.protected_segment.get k).2⟩ := by
      simp only [Slru.get, Lru.pop_entry_eq_of_none hf]
    rw [hfinal]
    refine ⟨⟨⟨hPnd, hPle, hPcap⟩,
      ⟨hnd', by rw [hlen', Lru.get_cap]; exact hQle,
        by rw [Lru.get_cap]; exact hQcap⟩, ?_⟩,
      ?_, rfl, Lru.get_cap _ _, ?_⟩
    · intro j hj
      intro hmem
      exact hdisj j hj ((hiff' j).mp hmem)
    · intro j
      apply bool_eq_of_iff
      rw [Slru.slru_contains_iff, Slru.slru_contains_iff]
      rw [hiff' j]
    · simp only [Slru.len, Lru.len, hlen']

theorem Lru.pop_eq_of_some {l : Lru K V} {k : K} {p : K × V}
    (hf : l.entries.find? (keyd k) = some p) :
    l.pop k = (some p.2, ⟨l.cap, l.entries.eraseP (keyd k)⟩) := by
  unfold Lru.pop
  rw [hf]

theorem Lru.pop_eq_of_none {l : Lru K V} {k : K}
    (hf : l.entries.find? (keyd k) = none) : l.pop k = (none, l) := by
  unfold Lru.pop
  rw [hf]

theorem Slru.push_eq_of_not_contains {s : Slru K V} {k : K} {v : V}
    (hc : s.contains k = false) :
    s.push k v = ((s.probationary_segment.push k v).1,
      ⟨(s.probationary_segment.push k v).2, s.protected_segment⟩) := by
  rw [Slru.slru_contains_eq, Bool.or_eq_false_iff] at hc
  unfold Slru.push
  simp [hc.1, hc.2]

theorem Slru.push_eq_of_prob_contains {s : Slru K V} {k : K} {v : V}
    (hc : s.probationary_segment.contains k = true) :
    s.push k v = ((s.probationary_segment.push k v).1,
      ⟨(s.probationary_segment.push k v).2, s.protected_segment⟩) := by
  unfold Slru.push
  rw [hc]
  simp

theorem Slru.push_eq_of_prot_contains {s : Slru K V} {k : K} {v : V}
    (hp : s.probationary_segment.contains k = false)
    (hc : s.protected_segment.contains k = true) :
    s.push k v = ((s.protected_segment.push k v).1,
      ⟨s.probationary_segment, (s.protected_segment.push k v).2⟩) := by
  unfold Slru.push
  rw [hp, hc]
  simp

theorem Slru.put_eq_of_not_contains {s : Slru K V} {k : K} {v : V}
    (hc : s.contains k = false) :
    s.put k v = ((s.probationary_segment.put k v).1,
      ⟨(s.probationary_segment.put k v).2, s.protected_segment⟩) := by
  rw [Slru.slru_contains_eq, Bool.or_eq_false_iff] at hc
  unfold Slru.put
  simp [hc.1, hc.2]

theorem Slru.put_eq_of_prob_contains {s : Slru K V} {k : K} {v : V}
    (hc : s.probationary_segment.contains k = true) :
    s.put k v = ((s.probationary_segment.put k v).1,
      ⟨(s.probationary_segment.put k v).2, s.protected_segment⟩) := by
  unfold Slru.put
  rw [hc]
  simp

theorem Slru.put_eq_of_prot_contains {s : Slru K V} {k : K} {v : V}
    (hp : s.probationary_segment.contains k = false)
    (hc : s.protected_segment.contains k = true) :
    s.put k v = ((s.protected_segment.put k v).1,
      ⟨s.probationary_segment, (s.protected_segment.put k v).2⟩) := by
  unfold Slru.put
  rw [hp, hc]
  simp

theorem Slru.slru_get_mut_eq (s : Slru K V) (k : K) : s.get_mut k = s.get k := rfl

theorem Lru.lru_get_mut_eq (l : Lru K V) (k : K) : l.get_mut k = l.get k := rfl

theorem Slru.slru_pop_state {s : Slru K V} (k : K) (h : SlruOk s) :
    SlruOk (s.pop k).2 ∧
    (∀ x, x ∈ (s.pop k).2.probationary_segment.keys →
      x ∈ s.probationary_segment.keys) ∧
    (∀ x, x ∈ (s.pop k).2.protected_segment.keys →
      x ∈ s.protected_segment.keys) ∧
    (s.pop k).2.probationary_segment.cap = s.probationary_segment.cap ∧
    (s.pop k).2.protected_segment.cap = s.protected_segment.cap := by
  obtain ⟨⟨hPnd, hPle, hPcap⟩, ⟨hQnd, hQle, hQcap⟩, hdisj⟩ := h
  cases hfp : s.probationary_segment.entries.find? (keyd k) with
  | some p =>
    have hstate : (s.pop k).2 =
        ⟨⟨s.probationary_segment.cap,
          s.probationary_segment.entries.eraseP (keyd k)⟩,
         s.protected_segment⟩ := by
      unfold Slru.pop
      simp only [Lru.pop_eq_of_some hfp]
    have hPnd' : ((s.probationary_segment.entries.eraseP (keyd k)).map Prod.fst).Nodup := by
      rw [keys_eraseP_keyd]
      exact hPnd.erase k
    have hsub : ∀ x, x ∈ (s.probationary_segment.entries.eraseP (keyd k)).map Prod.fst →
        x ∈ s.probationary_segment.keys := by
      intro x hx
      rw [keys_eraseP_keyd] at hx
      exact List.erase_subset _ _ hx
    rw [hstate]
    refine ⟨⟨⟨hPnd', le_trans (List.length_eraseP_le _) hPle, hPcap⟩,
      ⟨hQnd, hQle, hQcap⟩, ?_⟩, hsub, fun x hx => hx, rfl, rfl⟩
    intro x hx
    exact hdisj x (hsub x hx)
  | none =>
    have hstate : (s.pop k).2 =
        ⟨s.probationary_segment, (s.protected_segment.pop k).2⟩ := by
      unfold Slru.pop
      simp only [Lru.pop_eq_of_none hfp]
    obtain ⟨hQnd', hQle', hQsub⟩ := Lru.lru_pop_state (l := s.protected_segment)
      (k := k) hQnd
    rw [hstate]
    refine ⟨⟨⟨hPnd, hPle, hPcap⟩,
      ⟨hQnd', ?_, by rw [Lru.pop_cap]; exact hQcap⟩, ?_⟩,
      fun x hx => hx, hQsub, rfl, Lru.pop_cap _ _⟩
    · show (s.protected_segment.pop k).2.entries.length
        ≤ (s.protected_segment.pop k).2.cap
      rw [Lru.pop_cap]
      exact le_trans hQle' hQle
    · intro x hx hmem
      exact hdisj x hx (hQsub x hmem)

theorem Slru.pop_entry_state {s : Slru K V} (k : K) (h : SlruOk s) :
    SlruOk (s.pop_entry k).2 ∧
    (∀ x, x ∈ (s.pop_entry k).2.probationary_segment.keys →
      x ∈ s.probationary_segment.keys) ∧
    (∀ x, x ∈ (s.pop_entry k).2.protected_segment.keys →
      x ∈ s.protected_segment.keys) ∧
    (s.pop_entry k).2.probationary_segment.cap = s.probationary_segment.cap ∧
    (s.pop_entry k).2.protected_segment.cap = s.protected_segment.cap := by
  obtain ⟨⟨hPnd, hPle, hPcap⟩, ⟨hQnd, hQle, hQcap⟩, hdisj⟩ := h
  cases hfp : s.probationary_segment.entries.find? (keyd k) with
  | some p =>
    have hstate : (s.pop_entry k).2 =
        ⟨⟨s.probationary_segment.cap,
          s.probationary_segment.entries.eraseP (keyd k)⟩,
         s.protected_segment⟩ := by
      unfold Slru.pop_entry
      simp only [Lru.pop_entry_eq_of_some hfp]
    have hPnd' : ((s.probationary_segment.entries.eraseP (keyd k)).map Prod.fst).Nodup := by
      rw [keys_eraseP_keyd]
      exact hPnd.erase k
    have hsub : ∀ x, x ∈ (s.probationary_segment.entries.eraseP (keyd k)).map Prod.fst →
        x ∈ s.probationary_segment.keys := by
      intro x hx
      rw [keys_eraseP_keyd] at hx
      exact List.erase_subset _ _ hx
    rw [hstate]
    refine ⟨⟨⟨hPnd', le_trans (List.length_eraseP_le _) hPle, hPcap⟩,
      ⟨hQnd, hQle, hQcap⟩, ?_⟩, hsub, fun x hx => hx, rfl, rfl⟩
    intro x hx
    exact hdisj x (hsub x hx)
  | none =>
    cases hfq : s.protected_segment.entries.find? (keyd k) with
    | some q =>
      have hstate : (s.pop_entry k).2 =
          ⟨s.probationary_segment,
           ⟨s.protected_segment.cap,
            s.protected_segment.entries.eraseP (keyd k)⟩⟩ := by
        unfold Slru.pop_entry
        simp only [Lru.pop_entry_eq_of_none hfp, Lru.pop_entry_eq_of_some hfq]
      have hQnd' : ((s.protected_segment.entries.eraseP (keyd k)).map Prod.fst).Nodup := by
        rw [keys_eraseP_keyd]
        exact hQnd.erase k
      have hsub : ∀ x, x ∈ (s.protected_segment.entries.eraseP (keyd k)).map Prod.fst →
          x ∈ s.protected_segment.keys := by
        intro x hx
        rw [keys_eraseP_keyd] at hx
        exact List.erase_subset _ _ hx
      rw [hstate]
      refine ⟨⟨⟨hPnd, hPle, hPcap⟩,
        ⟨hQnd', le_trans (List.length_eraseP_le _) hQle, hQcap⟩, ?_⟩,
        fun x hx => hx, hsub, rfl, rfl⟩
      intro x hx hmem
      exact hdisj x hx (hsub x hmem)
    | none =>
      have hstate : (s.pop_entry k).2 = ⟨s.probationary_segment, s.protected_segment⟩ := by
        unfold Slru.pop_entry
        simp only [Lru.pop_entry_eq_of_none hfp, Lru.pop_entry_eq_of_none hfq]
      rw [hstate]
      exact ⟨⟨⟨hPnd, hPle, hPcap⟩, ⟨hQnd, hQle, hQcap⟩, hdisj⟩,
        fun x hx => hx, fun x hx => hx, rfl, rfl⟩

theorem Slru.slru_pop_lru_state {s : Slru K V} (h : SlruOk s) :
    SlruOk s.pop_lru.2 ∧
    (∀ x, x ∈ s.pop_lru.2.probationary_segment.keys →
      x ∈ s.probationary_segment.keys) ∧
    (∀ x, x ∈ s.pop_lru.2.protected_segment.keys →
      x ∈ s.protected_segment.keys) ∧
    s.pop_lru.2.probationary_segment.cap = s.probationary_segment.cap ∧
    s.pop_lru.2.protected_segment.cap = s.protected_segment.cap := by
  obtain ⟨⟨hPnd, hPle, hPcap⟩, ⟨hQnd, hQle, hQcap⟩, hdisj⟩ := h
  cases hg : s.probationary_segment.entries.getLast? with
  | some p =>
    have hpop : s.probationary_segment.pop_lru
        = (some p, ⟨s.probationary_segment.cap, s.probationary_segment.entries.dropLast⟩) := by
      unfold Lru.pop_lru
      rw [hg]
    have hstate : s.pop_lru.2 =
        ⟨⟨s.probationary_segment.cap, s.probationary_segment.entries.dropLast⟩,
         s.protected_segment⟩ := by
      unfold Slru.pop_lru
      simp only [hpop]
    have hPnd' : ((s.probationary_segment.entries.dropLast).map Prod.fst).Nodup := by
      rw [List.map_dropLast]
      exact hPnd.sublist (List.dropLast_sublist _)
    have hsub : ∀ x, x ∈ (s.probationary_segment.entries.dropLast).map Prod.fst →
        x ∈ s.probationary_segment.keys := by
      intro x hx
      rw [List.map_dropLast] at hx
      exact List.dropLast_subset _ hx
    rw [hstate]
    refine ⟨⟨⟨hPnd', le_trans ((List.dropLast_sublist _).length_le) hPle, hPcap⟩,
      ⟨hQnd, hQle, hQcap⟩, ?_⟩, hsub, fun x hx => hx, rfl, rfl⟩
    intro x hx
    exact hdisj x (hsub x hx)
  | none =>
    have hpop : s.probationary_segment.pop_lru = (none, s.probationary_segment) := by
      unfold Lru.pop_lru
      rw [hg]
    have hstate : s.pop_lru.2 =
        ⟨s.probationary_segment, s.protected_segment.pop_lru.2⟩ := by
      unfold Slru.pop_lru
      simp only [hpop]
    obtain ⟨hQnd', hQle', hQsub⟩ := Lru.lru_pop_lru_state (l := s.protected_segment) hQnd
    rw [hstate]
    refine ⟨⟨⟨hPnd, hPle, hPcap⟩,
      ⟨hQnd', ?_, by rw [Lru.pop_lru_cap]; exact hQcap⟩, ?_⟩,
      fun x hx => hx, hQsub, rfl, Lru.pop_lru_cap _⟩
    · show s.protected_segment.pop_lru.2.entries.length
        ≤ s.protected_segment.pop_lru.2.cap
      rw [Lru.pop_lru_cap]
      exact le_trans hQle' hQle
    · intro x hx hmem
      exact hdisj x hx (hQsub x hmem)

theorem Slru.slru_resize_state {s : Slru K V} (n : Nat) (h : SlruOk s) :
    SlruOk (s.resize n) ∧
    (∀ x, x ∈ (s.resize n).probationary_segment.keys →
      x ∈ s.probationary_segment.keys) ∧
    (∀ x, x ∈ (s.resize n).protected_segment.keys →
      x ∈ s.protected_segment.keys) := by
  obtain ⟨⟨hPnd, hPle, hPcap⟩, ⟨hQnd, hQle, hQcap⟩, hdisj⟩ := h
  obtain ⟨hPnd', hPle', hPc, hPsub⟩ :=
    Lru.lru_resize_state (l := s.probationary_segment) (n := max 1 (n / 5)) hPnd
  obtain ⟨hQnd', hQle', hQc, hQsub⟩ :=
    Lru.lru_resize_state (l := s.protected_segment) (n := max 1 (n - max 1 (n / 5))) hQnd
  refine ⟨⟨⟨hPnd', ?_, ?_⟩, ⟨hQnd', ?_, ?_⟩, ?_⟩, hPsub, hQsub⟩
  · show (s.probationary_segment.resize (max 1 (n / 5))).entries.length
      ≤ (s.probationary_segment.resize (max 1 (n / 5))).cap
    rw [hPc]
    exact hPle'
  · show 1 ≤ (s.probationary_segment.resize (max 1 (n / 5))).cap
    rw [hPc]
    exact le_max_left 1 _
  · show (s.protected_segment.resize (max 1 (n - max 1 (n / 5)))).entries.length
      ≤ (s.protected_segment.resize (max 1 (n - max 1 (n / 5)))).cap
    rw [hQc]
    exact hQle'
  · show 1 ≤ (s.protected_segment.resize (max 1 (n - max 1 (n / 5)))).cap
    rw [hQc]
    exact le_max_left 1 _
  · intro x hx hmem
    exact hdisj x (hPsub x hx) (hQsub x hmem)

theorem Slru.clear_eq (s : Slru K V) :
    s.clear = ⟨⟨s.probationary_segment.cap, []⟩, ⟨s.protected_segment.cap, []⟩⟩ := rfl

theorem WTinyLfu.cache_get_mut_eq (c : WTinyLfu K V) (k : K) :
    c.get_mut k = c.get k := rfl

theorem WTinyLfu.get_window_main (c : WTinyLfu K V) (k : K) :
    ((c.get k).2.window_cache = (c.window_cache.get k).2 ∧
     (c.get k).2.main_cache = c.main_cache) ∨
    ((c.get k).2.window_cache = c.window_cache ∧
     (c.get k).2.main_cache = (c.main_cache.get k).2) := by
  unfold WTinyLfu.get
  cases hw : c.window_cache.get k with
  | mk v? w =>
    cases v? with
    | some v =>
      left
      by_cases hd : doorCheck c.doorkeeper k = true
      · by_cases hs : c.sample_size ≤ c.sample_counter + 1
        · simp [hw, hd, hs]
        · simp [hw, hd, hs]
      · simp [hw, hd]
    | none =>
      right
      by_cases hm : (c.main_cache.get k).1.isSome = true
      · by_cases hd : doorCheck c.doorkeeper k = true
        · by_cases hs : c.sample_size ≤ c.sample_counter + 1
          · simp [hw, hm, hd, hs]
          · simp [hw, hm, hd, hs]
        · simp [hw, hm, hd]
      · simp [hw, hm]

theorem WTinyLfu.push_estimator (c : WTinyLfu K V) (k : K) (v : V) :
    (c.push k v).2.approximation_sketch = c.approximation_sketch ∧
    (c.push k v).2.doorkeeper = c.doorkeeper ∧
    (c.push k v).2.sample_counter = c.sample_counter ∧
    (c.push k v).2.sample_size = c.sample_size := by
  unfold WTinyLfu.push
  dsimp only
  repeat' split
  all_goals exact ⟨rfl, rfl, rfl, rfl⟩

theorem WTinyLfu.put_estimator (c : WTinyLfu K V) (k : K) (v : V) :
    (c.put k v).2.approximation_sketch = c.approximation_sketch ∧
    (c.put k v).2.doorkeeper = c.doorkeeper ∧
    (c.put k v).2.sample_counter = c.sample_counter ∧
    (c.put k v).2.sample_size = c.sample_size := by
  unfold WTinyLfu.put
  split
  · exact ⟨rfl, rfl, rfl, rfl⟩
  · split
    · exact ⟨rfl, rfl, rfl, rfl⟩
    · exact WTinyLfu.push_estimator c k v

theorem WTinyLfu.inv_get {c : WTinyLfu K V} (k : K) (h : Inv c) :
    Inv (c.get k).2 := by
  obtain ⟨hw, hp, hq, hwp, hwq, hpq⟩ := h
  rcases WTinyLfu.get_window_main c k with ⟨h1, h2⟩ | ⟨h1, h2⟩
  · obtain ⟨hnd', hlen', hiff'⟩ := Lru.get_state (l := c.window_cache) (k := k) hw.1
    unfold Inv
    rw [h1, h2]
    refine ⟨⟨hnd', ?_, ?_⟩, hp, hq, ?_, ?_, hpq⟩
    · rw [hlen', Lru.get_cap]
      exact hw.2.1
    · rw [Lru.get_cap]
      exact hw.2.2
    · intro x hx
      exact hwp x ((hiff' x).mp hx)
    · intro x hx
      exact hwq x ((hiff' x).mp hx)
  · obtain ⟨⟨hp', hq', hpq'⟩, hcont, _, _, _⟩ :=
      Slru.get_preserves (s := c.main_cache) k ⟨hp, hq, hpq⟩
    unfold Inv
    rw [h1, h2]
    refine ⟨hw, hp', hq', ?_, ?_, hpq'⟩
    · intro x hx hmem
      have hc2 : (c.main_cache.get k).2.contains x = true :=
        Slru.slru_contains_iff.mpr (Or.inl hmem)
      rw [hcont x] at hc2
      rcases Slru.slru_contains_iff.mp hc2 with h' | h'
      · exact hwp x hx h'
      · exact hwq x hx h'
    · intro x hx hmem
      have hc2 : (c.main_cache.get k).2.contains x = true :=
        Slru.slru_contains_iff.mpr (Or.inr hmem)
      rw [hcont x] at hc2
      rcases Slru.slru_contains_iff.mp hc2 with h' | h'
      · exact hwp x hx h'
      · exact hwq x hx h'

theorem WTinyLfu.inv_get_mut {c : WTinyLfu K V} (k : K) (h : Inv c) :
    Inv (c.get_mut k).2 := by
  rw [WTinyLfu.cache_get_mut_eq]
  exact WTinyLfu.inv_get k h

theorem Slru.contains_eq_false_iff {s : Slru K V} {k : K} :
    s.contains k = false ↔
      s.probationary_segment.contains k = false ∧
      s.protected_segment.contains k = false := by
  rw [Slru.slru_contains_eq, Bool.or_eq_false_iff]

theorem WTinyLfu.push_eq_window_hit {c : WTinyLfu K V} {k : K} {v : V}
    (hc : c.window_cache.contains k = true) :
    c.push k v = ((c.window_cache.push k v).1,
      { c with window_cache := (c.window_cache.push k v).2 }) := by
  unfold WTinyLfu.push
  simp [hc]

theorem WTinyLfu.push_eq_main_hit {c : WTinyLfu K V} {k : K} {v : V}
    (hcw : c.window_cache.contains k = false)
    (hcm : c.main_cache.contains k = true) :
    c.push k v = ((c.main_cache.push k v).1,
      { c with main_cache := (c.main_cache.push k v).2 }) := by
  unfold WTinyLfu.push
  simp [hcw, hcm]

theorem WTinyLfu.push_eq_fresh_noevict {c : WTinyLfu K V} {k : K} {v : V}
    (hcw : c.window_cache.contains k = false)
    (hcm : c.main_cache.contains k = false)
    (hr : (c.window_cache.push k v).1 = none) :
    c.push k v = (none, { c with window_cache := (c.window_cache.push k v).2 }) := by
  unfold WTinyLfu.push
  simp [hcw, hcm, hr]

theorem WTinyLfu.push_eq_fresh_evict_nofull {c : WTinyLfu K V} {k : K} {v : V}
    {wv : K × V}
    (hcw : c.window_cache.contains k = false)
    (hcm : c.main_cache.contains k = false)
    (hr : (c.window_cache.push k v).1 = some wv)
    (hfull : c.main_cache.peek_lru_if_full = none) :
    c.push k v = ((c.main_cache.push wv.1 wv.2).1,
      { c with window_cache := (c.window_cache.push k v).2,
               main_cache := (c.main_cache.push wv.1 wv.2).2 }) := by
  unfold WTinyLfu.push
  simp [hcw, hcm, hr, hfull]

theorem WTinyLfu.push_eq_fresh_evict_full_accept {c : WTinyLfu K V} {k : K}
    {v : V} {wv mv : K × V}
    (hcw : c.window_cache.contains k = false)
    (hcm : c.main_cache.contains k = false)
    (hr : (c.window_cache.push k v).1 = some wv)
    (hfull : c.main_cache.peek_lru_if_full = some mv)
    (hest : c.estimate mv.1 < c.estimate wv.1) :
    c.push k v = ((c.main_cache.push wv.1 wv.2).1,
      { c with window_cache := (c.window_cache.push k v).2,
               main_cache := (c.main_cache.push wv.1 wv.2).2 }) := by
  unfold WTinyLfu.push
  simp only [hcw, hcm, Bool.false_eq_true, if_false]
  simp only [hr, hfull]
  have hest' : ({ c with window_cache := (c.window_cache.push k v).2 }
      : WTinyLfu K V).estimate wv.1 >
      ({ c with window_cache := (c.window_cache.push k v).2 }
      : WTinyLfu K V).estimate mv.1 := hest
  rw [if_pos hest']

theorem WTinyLfu.push_eq_fresh_evict_full_reject {c : WTinyLfu K V} {k : K}
    {v : V} {wv mv : K × V}
    (hcw : c.window_cache.contains k = false)
    (hcm : c.main_cache.contains k = false)
    (hr : (c.window_cache.push k v).1 = some wv)
    (hfull : c.main_cache.peek_lru_if_full = some mv)
    (hest : ¬ c.estimate mv.1 < c.estimate wv.1) :
    c.push k v = (some wv,
      { c with window_cache := (c.window_cache.push k v).2 }) := by
  unfold WTinyLfu.push
  simp only [hcw, hcm, Bool.false_eq_true, if_false]
  simp only [hr, hfull]
  have hest' : ¬ ({ c with window_cache := (c.window_cache.push k v).2 }
      : WTinyLfu K V).estimate wv.1 >
      ({ c with window_cache := (c.window_cache.push k v).2 }
      : WTinyLfu K V).estimate mv.1 := hest
  rw [if_neg hest']

theorem WTinyLfu.inv_push {c : WTinyLfu K V} (k : K) (v : V) (h : Inv c) :
    Inv (c.push k v).2 := by
  obtain ⟨hw, hp, hq, hwp, hwq, hpq⟩ := h
  by_cases hcw : c.window_cache.contains k = true
  · rw [WTinyLfu.push_eq_window_hit hcw]
    obtain ⟨hnd', hlen', hiff'⟩ := Lru.push_state_of_contains hcw hw.1
    refine ⟨⟨hnd', ?_, ?_⟩, hp, hq, ?_, ?_, hpq⟩
    · show (c.window_cache.push k v).2.entries.length
        ≤ (c.window_cache.push k v).2.cap
      rw [hlen', Lru.push_cap]
      exact hw.2.1
    · show 1 ≤ (c.window_cache.push k v).2.cap
      rw [Lru.push_cap]
      exact hw.2.2
    · intro x hx
      exact hwp x ((hiff' x).mp hx)
    · intro x hx
      exact hwq x ((hiff' x).mp hx)
  · rw [Bool.not_eq_true] at hcw
    by_cases hcm : c.main_cache.contains k = true
    · rw [WTinyLfu.push_eq_main_hit hcw hcm]
      by_cases hcp : c.main_cache.probationary_segment.contains k = true
      · have hmain : (c.main_cache.push k v).2 =
            ⟨(c.main_cache.probationary_segment.push k v).2,
             c.main_cache.protected_segment⟩ := by
          rw [Slru.push_eq_of_prob_contains hcp]
        obtain ⟨hnd', hlen', hiff'⟩ := Lru.push_state_of_contains hcp hp.1
        refine ⟨hw, ?_, ?_, ?_, ?_, ?_⟩ <;> rw [hmain]
        · refine ⟨hnd', ?_, ?_⟩
          · show (c.main_cache.probationary_segment.push k v).2.entries.length
              ≤ (c.main_cache.probationary_segment.push k v).2.cap
            rw [hlen', Lru.push_cap]
            exact hp.2.1
          · show 1 ≤ (c.main_cache.probationary_segment.push k v).2.cap
            rw [Lru.push_cap]
            exact hp.2.2
        · exact hq
        · intro x hx hmem
          exact hwp x hx ((hiff' x).mp hmem)
        · exact hwq
        · intro x hx
          exact hpq x ((hiff' x).mp hx)
      · rw [Bool.not_eq_true] at hcp
        have hcq : c.main_cache.protected_segment.contains k = true := by
          rw [Slru.slru_contains_eq, hcp, Bool.false_or] at hcm
          exact hcm
        have hmain : (c.main_cache.push k v).2 =
            ⟨c.main_cache.probationary_segment,
             (c.main_cache.protected_segment.push k v).2⟩ := by
          rw [Slru.push_eq_of_prot_contains hcp hcq]
        obtain ⟨hnd', hlen', hiff'⟩ := Lru.push_state_of_contains hcq hq.1
        refine ⟨hw, ?_, ?_, ?_, ?_, ?_⟩ <;> rw [hmain]
        · exact hp
        · refine ⟨hnd', ?_, ?_⟩
          · show (c.main_cache.protected_segment.push k v).2.entries.length
              ≤ (c.main_cache.protected_segment.push k v).2.cap
            rw [hlen', Lru.push_cap]
            exact hq.2.1
          · show 1 ≤ (c.main_cache.protected_segment.push k v).2.cap
            rw [Lru.push_cap]
            exact hq.2.2
        · exact hwp
        · intro x hx hmem
          exact hwq x hx ((hiff' x).mp hmem)
        · intro x hx hmem
          exact hpq x hx ((hiff' x).mp hmem)
    · rw [Bool.not_eq_true] at hcm
      obtain ⟨hcp, hcq⟩ := Slru.contains_eq_false_iff.mp hcm
      have hkp : k ∉ c.main_cache.probationary_segment.keys :=
        Lru.contains_eq_false.mp hcp
      have hkq : k ∉ c.main_cache.protected_segment.keys :=
        Lru.contains_eq_false.mp hcq
      obtain ⟨hwnd', hwle', hwsub, hwmem⟩ :=
        Lru.push_state_of_not_contains (v := v) hcw hw
      have hwOk' : LruOk (c.window_cache.push k v).2 := by
        refine ⟨hwnd', ?_, ?_⟩
        · rw [Lru.push_cap]
          exact hwle'
        · rw [Lru.push_cap]
          exact hw.2.2
      cases hr : (c.window_cache.push k v).1 with
      | none =>
        rw [WTinyLfu.push_eq_fresh_noevict hcw hcm hr]
        refine ⟨hwOk', hp, hq, ?_, ?_, hpq⟩
        · intro x hx
          rcases hwsub x hx with rfl | hx'
          · exact hkp
          · exact hwp x hx'
        · intro x hx
          rcases hwsub x hx with rfl | hx'
          · exact hkq
          · exact hwq x hx'
      | some wv =>
        obtain ⟨hwvmem, hwvout, hwvk⟩ :=
          Lru.push_evict_of_not_contains hcw hw hr
        have hwvp : wv.1 ∉ c.main_cache.probationary_segment.keys :=
          hwp wv.1 hwvmem
        have hwvq : wv.1 ∉ c.main_cache.protected_segment.keys :=
          hwq wv.1 hwvmem
        have hwvm : c.main_cache.contains wv.1 = false :=
          Slru.contains_eq_false_iff.mpr
            ⟨Lru.contains_eq_false.mpr hwvp, Lru.contains_eq_false.mpr hwvq⟩
        have hmain : (c.main_cache.push wv.1 wv.2).2 =
            ⟨(c.main_cache.probationary_segment.push wv.1 wv.2).2,
             c.main_cache.protected_segment⟩ := by
          rw [Slru.push_eq_of_not_contains hwvm]
        obtain ⟨hpnd', hple', hpsub, _⟩ :=
          Lru.push_state_of_not_contains (v := wv.2)
            (Lru.contains_eq_false.mpr hwvp) hp
        have hpOk' : LruOk (c.main_cache.probationary_segment.push wv.1 wv.2).2 := by
          refine ⟨hpnd', ?_, ?_⟩
          · rw [Lru.push_cap]
            exact hple'
          · rw [Lru.push_cap]
            exact hp.2.2
        have hmainInv : Inv { c with
            window_cache := (c.window_cache.push k v).2,
            main_cache := (c.main_cache.push wv.1 wv.2).2 } := by
          refine ⟨hwOk', ?_, ?_, ?_, ?_, ?_⟩ <;> rw [hmain]
          · exact hpOk'
          · exact hq
          · intro x hx hmem
            rcases hpsub x hmem with rfl | hmem'
            · exact hwvout hx
            · rcases hwsub x hx with rfl | hx'
              · exact hkp hmem'
              · exact hwp x hx' hmem'
          · intro x hx
            rcases hwsub x hx with rfl | hx'
            · exact hkq
            · exact hwq x hx'
          · intro x hx
            rcases hpsub x hx with rfl | hx'
            · exact hwvq
            · exact hpq x hx'
        cases hfull : c.main_cache.peek_lru_if_full with
        | none =>
          rw [WTinyLfu.push_eq_fresh_evict_nofull hcw hcm hr hfull]
          exact hmainInv
        | some mv =>
          by_cases hest : c.estimate mv.1 < c.estimate wv.1
          · rw [WTinyLfu.push_eq_fresh_evict_full_accept hcw hcm hr hfull hest]
            exact hmainInv
          · rw [WTinyLfu.push_eq_fresh_evict_full_reject hcw hcm hr hfull hest]
            refine ⟨hwOk', hp, hq, ?_, ?_, hpq⟩
            · intro x hx
              rcases hwsub x hx with rfl | hx'
              · exact hkp
              · exact hwp x hx'
            · intro x hx
              rcases hwsub x hx with rfl | hx'
              · exact hkq
              · exact hwq x hx'

theorem WTinyLfu.put_eq_window_hit {c : WTinyLfu K V} {k : K} {v : V}
    (hc : c.window_cache.contains k = true) :
    c.put k v = ((c.window_cache.put k v).1,
      { c with window_cache := (c.window_cache.put k v).2 }) := by
  unfold WTinyLfu.put
  simp [hc]

theorem WTinyLfu.put_eq_main_hit {c : WTinyLfu K V} {k : K} {v : V}
    (hcw : c.window_cache.contains k = false)
    (hcm : c.main_cache.contains k = true) :
    c.put k v = ((c.main_cache.put k v).1,
      { c with main_cache := (c.main_cache.put k v).2 }) := by
  unfold WTinyLfu.put
  simp [hcw, hcm]

theorem WTinyLfu.put_eq_fresh {c : WTinyLfu K V} {k : K} {v : V}
    (hcw : c.window_cache.contains k = false)
    (hcm : c.main_cache.contains k = false) :
    c.put k v = (none, (c.push k v).2) := by
  unfold WTinyLfu.put
  simp [hcw, hcm]

theorem WTinyLfu.inv_put {c : WTinyLfu K V} (k : K) (v : V) (h : Inv c) :
    Inv (c.put k v).2 := by
  obtain ⟨hw, hp, hq, hwp, hwq, hpq⟩ := h
  by_cases hcw : c.window_cache.contains k = true
  · rw [WTinyLfu.put_eq_window_hit hcw]
    obtain ⟨hnd', hlen', hiff'⟩ := Lru.put_state_of_contains hcw hw.1
    refine ⟨⟨hnd', ?_, ?_⟩, hp, hq, ?_, ?_, hpq⟩
    · show (c.window_cache.put k v).2.entries.length
        ≤ (c.window_cache.put k v).2.cap
      rw [hlen', Lru.put_cap]
      exact hw.2.1
    · show 1 ≤ (c.window_cache.put k v).2.cap
      rw [Lru.put_cap]
      exact hw.2.2
    · intro x hx
      exact hwp x ((hiff' x).mp hx)
    · intro x hx
      exact hwq x ((hiff' x).mp hx)
  · rw [Bool.not_eq_true] at hcw
    by_cases hcm : c.main_cache.contains k = true
    · rw [WTinyLfu.put_eq_main_hit hcw hcm]
      by_cases hcp : c.main_cache.probationary_segment.contains k = true
      · have hmain : (c.main_cache.put k v).2 =
            ⟨(c.main_cache.probationary_segment.put k v).2,
             c.main_cache.protected_segment⟩ := by
          rw [Slru.put_eq_of_prob_contains hcp]
        obtain ⟨hnd', hlen', hiff'⟩ := Lru.put_state_of_contains hcp hp.1
        refine ⟨hw, ?_, ?_, ?_, ?_, ?_⟩ <;> rw [hmain]
        · refine ⟨hnd', ?_, ?_⟩
          · show (c.main_cache.probationary_segment.put k v).2.entries.length
              ≤ (c.main_cache.probationary_segment.put k v).2.cap
            rw [hlen', Lru.put_cap]
            exact hp.2.1
          · show 1 ≤ (c.main_cache.probationary_segment.put k v).2.cap
            rw [Lru.put_cap]
            exact hp.2.2
        · exact hq
        · intro x hx hmem
          exact hwp x hx ((hiff' x).mp hmem)
        · exact hwq
        · intro x hx
          exact hpq x ((hiff' x).mp hx)
      · rw [Bool.not_eq_true] at hcp
        have hcq : c.main_cache.protected_segment.contains k = true := by
          rw [Slru.slru_contains_eq, hcp, Bool.false_or] at hcm
          exact hcm
        have hmain : (c.main_cache.put k v).2 =
            ⟨c.main_cache.probationary_segment,
             (c.main_cache.protected_segment.put k v).2⟩ := by
          rw [Slru.put_eq_of_prot_contains hcp hcq]
        obtain ⟨hnd', hlen', hiff'⟩ := Lru.put_state_of_contains hcq hq.1
        refine ⟨hw, ?_, ?_, ?_, ?_, ?_⟩ <;> rw [hmain]
        · exact hp
        · refine ⟨hnd', ?_, ?_⟩
          · show (c.main_cache.protected_segment.put k v).2.entries.length
              ≤ (c.main_cache.protected_segment.put k v).2.cap
            rw [hlen', Lru.put_cap]
            exact hq.2.1
          · show 1 ≤ (c.main_cache.protected_segment.put k v).2.cap
            rw [Lru.put_cap]
            exact hq.2.2
        · exact hwp
        · intro x hx hmem
          exact hwq x hx ((hiff' x).mp hmem)
        · intro x hx hmem
          exact hpq x hx ((hiff' x).mp hmem)
    · rw [Bool.not_eq_true] at hcm
      rw [WTinyLfu.put_eq_fresh hcw hcm]
      exact WTinyLfu.inv_push k v ⟨hw, hp, hq, hwp, hwq, hpq⟩

theorem WTinyLfu.inv_pop {c : WTinyLfu K V} (k : K) (h : Inv c) :
    Inv (c.pop k).2 := by
  obtain ⟨hw, hp, hq, hwp, hwq, hpq⟩ := h
  cases hf : c.window_cache.entries.find? (keyd k) with
  | some p =>
    have hstate : (c.pop k).2 = { c with window_cache :=
        ⟨c.window_cache.cap, c.window_cache.entries.eraseP (keyd k)⟩ } := by
      unfold WTinyLfu.pop
      simp only [Lru.pop_eq_of_some hf]
    rw [hstate]
    have hnd' : ((c.window_cache.entries.eraseP (keyd k)).map Prod.fst).Nodup := by
      rw [keys_eraseP_keyd]
      exact hw.1.erase k
    have hsub : ∀ x, x ∈ (c.window_cache.entries.eraseP (keyd k)).map Prod.fst →
        x ∈ c.window_cache.keys := by
      intro x hx
      rw [keys_eraseP_keyd] at hx
      exact List.erase_subset _ _ hx
    refine ⟨⟨hnd', le_trans (List.length_eraseP_le _) hw.2.1, hw.2.2⟩,
      hp, hq, ?_, ?_, hpq⟩
    · intro x hx
      exact hwp x (hsub x hx)
    · intro x hx
      exact hwq x (hsub x hx)
  | none =>
    have hstate : (c.pop k).2 = { c with main_cache := (c.main_cache.pop k).2 } := by
      unfold WTinyLfu.pop
      simp only [Lru.pop_eq_of_none hf]
    rw [hstate]
    obtain ⟨⟨hp', hq', hpq'⟩, hpsub, hqsub, _, _⟩ :=
      Slru.slru_pop_state (s := c.main_cache) k ⟨hp, hq, hpq⟩
    refine ⟨hw, hp', hq', ?_, ?_, hpq'⟩
    · intro x hx hmem
      exact hwp x hx (hpsub x hmem)
    · intro x hx hmem
      exact hwq x hx (hqsub x hmem)

theorem WTinyLfu.inv_pop_entry {c : WTinyLfu K V} (k : K) (h : Inv c) :
    Inv (c.pop_entry k).2 := by
  obtain ⟨hw, hp, hq, hwp, hwq, hpq⟩ := h
  cases hf : c.window_cache.entries.find? (keyd k) with
  | some p =>
    have hstate : (c.pop_entry k).2 = { c with window_cache :=
        ⟨c.window_cache.cap, c.window_cache.entries.eraseP (keyd k)⟩ } := by
      unfold WTinyLfu.pop_entry
      simp only [Lru.pop_entry_eq_of_some hf]
    rw [hstate]
    have hnd' : ((c.window_cache.entries.eraseP (keyd k)).map Prod.fst).Nodup := by
      rw [keys_eraseP_keyd]
      exact hw.1.erase k
    have hsub : ∀ x, x ∈ (c.window_cache.entries.eraseP (keyd k)).map Prod.fst →
        x ∈ c.window_cache.keys := by
      intro x hx
      rw [keys_eraseP_keyd] at hx
      exact List.erase_subset _ _ hx
    refine ⟨⟨hnd', le_trans (List.length_eraseP_le _) hw.2.1, hw.2.2⟩,
      hp, hq, ?_, ?_, hpq⟩
    · intro x hx
      exact hwp x (hsub x hx)
    · intro x hx
      exact hwq x (hsub x hx)
  | none =>
    have hstate : (c.pop_entry k).2 =
        { c with main_cache := (c.main_cache.pop_entry k).2 } := by
      unfold WTinyLfu.pop_entry
      simp only [Lru.pop_entry_eq_of_none hf]
    rw [hstate]
    obtain ⟨⟨hp', hq', hpq'⟩, hpsub, hqsub, _, _⟩ :=
      Slru.pop_entry_state (s := c.main_cache) k ⟨hp, hq, hpq⟩
    refine ⟨hw, hp', hq', ?_, ?_, hpq'⟩
    · intro x hx hmem
      exact hwp x hx (hpsub x hmem)
    · intro x hx hmem
      exact hwq x hx (hqsub x hmem)

theorem WTinyLfu.inv_pop_lru_window {c : WTinyLfu K V} (h : Inv c) :
    Inv c.pop_lru_window.2 := by
  obtain ⟨hw, hp, hq, hwp, hwq, hpq⟩ := h
  obtain ⟨hnd', hle', hsub⟩ := Lru.lru_pop_lru_state (l := c.window_cache) hw.1
  refine ⟨⟨hnd', ?_, ?_⟩, hp, hq, ?_, ?_, hpq⟩
  · show c.window_cache.pop_lru.2.entries.length ≤ c.window_cache.pop_lru.2.cap
    rw [Lru.pop_lru_cap]
    exact le_trans hle' hw.2.1
  · show 1 ≤ c.window_cache.pop_lru.2.cap
    rw [Lru.pop_lru_cap]
    exact hw.2.2
  · intro x hx
    exact hwp x (hsub x hx)
  · intro x hx
    exact hwq x (hsub x hx)

theorem WTinyLfu.inv_pop_lru_main {c : WTinyLfu K V} (h : Inv c) :
    Inv c.pop_lru_main.2 := by
  obtain ⟨hw, hp, hq, hwp, hwq, hpq⟩ := h
  obtain ⟨⟨hp', hq', hpq'⟩, hpsub, hqsub, _, _⟩ :=
    Slru.slru_pop_lru_state (s := c.main_cache) ⟨hp, hq, hpq⟩
  refine ⟨hw, hp', hq', ?_, ?_, hpq'⟩
  · intro x hx hmem
    exact hwp x hx (hpsub x hmem)
  · intro x hx hmem
    exact hwq x hx (hqsub x hmem)

theorem WTinyLfu.inv_resize {c : WTinyLfu K V} (n : Nat) (h : Inv c) :
    Inv (c.resize n) := by
  obtain ⟨hw, hp, hq, hwp, hwq, hpq⟩ := h
  obtain ⟨hwnd', hwle', hwc, hwsub⟩ :=
    Lru.lru_resize_state (l := c.window_cache) (n := max 1 (n / 100)) hw.1
  obtain ⟨⟨hp', hq', hpq'⟩, hpsub, hqsub⟩ :=
    Slru.slru_resize_state (s := c.main_cache) (max 1 (n - max 1 (n / 100)))
      ⟨hp, hq, hpq⟩
  refine ⟨⟨hwnd', ?_, ?_⟩, hp', hq', ?_, ?_, hpq'⟩
  · show (c.window_cache.resize (max 1 (n / 100))).entries.length
      ≤ (c.window_cache.resize (max 1 (n / 100))).cap
    rw [hwc]
    exact hwle'
  · show 1 ≤ (c.window_cache.resize (max 1 (n / 100))).cap
    rw [hwc]
    exact le_max_left 1 _
  · intro x hx hmem
    exact hwp x (hwsub x hx) (hpsub x hmem)
  · intro x hx hmem
    exact hwq x (hwsub x hx) (hqsub x hmem)

theorem WTinyLfu.inv_clear {c : WTinyLfu K V} (h : Inv c) : Inv c.clear := by
  obtain ⟨hw, hp, hq, _, _, _⟩ := h
  exact ⟨⟨List.nodup_nil, Nat.zero_le _, hw.2.2⟩,
    ⟨List.nodup_nil, Nat.zero_le _, hp.2.2⟩,
    ⟨List.nodup_nil, Nat.zero_le _, hq.2.2⟩,
    fun x hx => absurd hx (List.not_mem_nil x),
    fun x hx => absurd hx (List.not_mem_nil x),
    fun x hx => absurd hx (List.not_mem_nil x)⟩

theorem WTinyLfu.inv_new (cap sample : Nat) :
    Inv (WTinyLfu.new K V cap sample) := by
  refine ⟨⟨List.nodup_nil, Nat.zero_le _, le_max_left 1 _⟩,
    ⟨List.nodup_nil, Nat.zero_le _, le_max_left 1 _⟩,
    ⟨List.nodup_nil, Nat.zero_le _, le_max_left 1 _⟩,
    fun x hx => absurd hx (List.not_mem_nil x),
    fun x hx => absurd hx (List.not_mem_nil x),
    fun x hx => absurd hx (List.not_mem_nil x)⟩

theorem WTinyLfu.inv_applyOp {c : WTinyLfu K V} (op : Op K V) (h : Inv c) :
    Inv (applyOp c op) := by
  cases op with
  | put k v => exact WTinyLfu.inv_put k v h
  | push k v => exact WTinyLfu.inv_push k v h
  | get k => exact WTinyLfu.inv_get k h
  | get_mut k => exact WTinyLfu.inv_get_mut k h
  | pop k => exact WTinyLfu.inv_pop k h
  | pop_entry k => exact WTinyLfu.inv_pop_entry k h
  | pop_lru_window => exact WTinyLfu.inv_pop_lru_window h
  | pop_lru_main => exact WTinyLfu.inv_pop_lru_main h
  | resize n => exact WTinyLfu.inv_resize n h
  | clear => exact WTinyLfu.inv_clear h

theorem WTinyLfu.inv_applyOps {c : WTinyLfu K V} (ops : List (Op K V))
    (h : Inv c) : Inv (applyOps c ops) := by
  induction ops generalizing c with
  | nil => exact h
  | cons op rest ih => exact ih (WTinyLfu.inv_applyOp op h)

theorem WTinyLfu.inv_of_reachable {c : WTinyLfu K V} (h : Reachable c) :
    Inv c := by
  obtain ⟨cap, sample, ops, rfl⟩ := h
  exact WTinyLfu.inv_applyOps ops (WTinyLfu.inv_new cap sample)

/-- C3: for every sequence of public operations applied to a freshly
constructed cache, no key is present in more than one of the three sub-caches:
the key sets of the window, the probationary segment and the protected segment
are pairwise disjoint. -/
theorem C3_no_key_in_two_subcaches (K V : Type) [DecidableEq K]
    (cap sample : Nat) (ops : List (Op K V)) :
    LruDisj (applyOps (WTinyLfu.new K V cap sample) ops).window_cache
      (applyOps (WTinyLfu.new K V cap sample) ops).main_cache.probationary_segment ∧
    LruDisj (applyOps (WTinyLfu.new K V cap sample) ops).window_cache
      (applyOps (WTinyLfu.new K V cap sample) ops).main_cache.protected_segment ∧
    LruDisj (applyOps (WTinyLfu.new K V cap sample) ops).main_cache.probationary_segment
      (applyOps (WTinyLfu.new K V cap sample) ops).main_cache.protected_segment := by
  have h := WTinyLfu.inv_applyOps (c := WTinyLfu.new K V cap sample) ops
    (WTinyLfu.inv_new cap sample)
  exact ⟨h.2.2.2.1, h.2.2.2.2.1, h.2.2.2.2.2⟩

/-- C3 witness: the disjointness holds concretely after two pushes into a
fresh cache of capacity 3. -/
theorem C3_no_key_in_two_subcaches_witness :
    LruDisj (applyOps (WTinyLfu.new Nat Nat 3 10) [Op.push 1 11, Op.push 2 22]).window_cache
      (applyOps (WTinyLfu.new Nat Nat 3 10)
        [Op.push 1 11, Op.push 2 22]).main_cache.probationary_segment ∧
    LruDisj (applyOps (WTinyLfu.new Nat Nat 3 10) [Op.push 1 11, Op.push 2 22]).window_cache
      (applyOps (WTinyLfu.new Nat Nat 3 10)
        [Op.push 1 11, Op.push 2 22]).main_cache.protected_segment ∧
    LruDisj (applyOps (WTinyLfu.new Nat Nat 3 10)
        [Op.push 1 11, Op.push 2 22]).main_cache.probationary_segment
      (applyOps (WTinyLfu.new Nat Nat 3 10)
        [Op.push 1 11, Op.push 2 22]).main_cache.protected_segment :=
  C3_no_key_in_two_subcaches Nat Nat 3 10 [Op.push 1 11, Op.push 2 22]

/-- C6: for every capacity argument `C ≥ 1`, after `resize C` (and likewise
after `new C S`) the reported `cap` lies in `[C, C + 2]`, and when `C ≥ 3` the
three sub-cache capacities add up to exactly `C`. -/
theorem C6_capacity_bounds {K V : Type} [DecidableEq K] (c : WTinyLfu K V)
    (C S : Nat) (h : 1 ≤ C) :
    (C ≤ (c.resize C).cap ∧ (c.resize C).cap ≤ C + 2) ∧
    (C ≤ (WTinyLfu.new K V C S).cap ∧ (WTinyLfu.new K V C S).cap ≤ C + 2) ∧
    (3 ≤ C →
      (c.resize C).window_cache.cap
        + (c.resize C).main_cache.probationary_segment.cap
        + (c.resize C).main_cache.protected_segment.cap = C ∧
      (WTinyLfu.new K V C S).window_cache.cap
        + (WTinyLfu.new K V C S).main_cache.probationary_segment.cap
        + (WTinyLfu.new K V C S).main_cache.protected_segment.cap = C) := by
  refine ⟨⟨?_, ?_⟩, ⟨?_, ?_⟩, fun h3 => ⟨?_, ?_⟩⟩
  · show C ≤ max 1 (C / 100) + (max 1 (max 1 (C - max 1 (C / 100)) / 5)
      + max 1 (max 1 (C - max 1 (C / 100)) - max 1 (max 1 (C - max 1 (C / 100)) / 5)))
    omega
  · show max 1 (C / 100) + (max 1 (max 1 (C - max 1 (C / 100)) / 5)
      + max 1 (max 1 (C - max 1 (C / 100)) - max 1 (max 1 (C - max 1 (C / 100)) / 5)))
      ≤ C + 2
    omega
  · show C ≤ max 1 (C / 100) + (max 1 (max 1 (C - max 1 (C / 100)) / 5)
      + max 1 (max 1 (C - max 1 (C / 100)) - max 1 (max 1 (C - max 1 (C / 100)) / 5)))
    omega
  · show max 1 (C / 100) + (max 1 (max 1 (C - max 1 (C / 100)) / 5)
      + max 1 (max 1 (C - max 1 (C / 100)) - max 1 (max 1 (C - max 1 (C / 100)) / 5)))
      ≤ C + 2
    omega
  · show max 1 (C / 100) + max 1 (max 1 (C - max 1 (C / 100)) / 5)
      + max 1 (max 1 (C - max 1 (C / 100)) - max 1 (max 1 (C - max 1 (C / 100)) / 5)) = C
    omega
  · show max 1 (C / 100) + max 1 (max 1 (C - max 1 (C / 100)) / 5)
      + max 1 (max 1 (C - max 1 (C / 100)) - max 1 (max 1 (C - max 1 (C / 100)) / 5)) = C
    omega

/-- C6 witness: `resize 5` and `new 5 2` report capacity 5, within bounds. -/
theorem C6_capacity_bounds_witness :
    1 ≤ 5 ∧
    (5 ≤ ((WTinyLfu.new Nat Nat 1 1).resize 5).cap ∧
      ((WTinyLfu.new Nat Nat 1 1).resize 5).cap ≤ 5 + 2) ∧
    (5 ≤ (WTinyLfu.new Nat Nat 5 2).cap ∧ (WTinyLfu.new Nat Nat 5 2).cap ≤ 5 + 2) :=
  ⟨by decide,
   (C6_capacity_bounds (WTinyLfu.new Nat Nat 1 1) 5 2 (by decide)).1,
   (C6_capacity_bounds (WTinyLfu.new Nat Nat 1 1) 5 2 (by decide)).2.1⟩

/-- C7: `clear` empties the cache (`len = 0`), does not change `cap`, and
leaves the approximation sketch, the doorkeeper and the sample counter
exactly as they were. -/
theorem C7_clear_frame {K V : Type} [DecidableEq K] (c : WTinyLfu K V) :
    c.clear.len = 0 ∧ c.clear.cap = c.cap ∧
    c.clear.approximation_sketch = c.approximation_sketch ∧
    c.clear.doorkeeper = c.doorkeeper ∧
    c.clear.sample_counter = c.sample_counter :=
  ⟨rfl, rfl, rfl, rfl, rfl⟩

/-- C9: under the segment invariants, `get` and `get_mut` on the SLRU never
remove (or add) any key: every key's membership, and the total length, are
unchanged. -/
theorem C9_slru_get_keyset {K V : Type} [DecidableEq K] (s : Slru K V)
    (k j : K)
    (h1 : LruOk s.probationary_segment) (h2 : LruOk s.protected_segment)
    (h3 : LruDisj s.probationary_segment s.protected_segment) :
    (s.get k).2.contains j = s.contains j ∧
    (s.get_mut k).2.contains j = s.contains j ∧
    (s.get k).2.len = s.len := by
  have h := Slru.get_preserves (s := s) k ⟨h1, h2, h3⟩
  exact ⟨h.2.1 j, by rw [Slru.slru_get_mut_eq]; exact h.2.1 j, h.2.2.2.2⟩

/-- C9 witness: promoting key 1 out of a full probationary segment keeps
key 4 resident and preserves the total length. -/
theorem C9_slru_get_keyset_witness :
    (c9state.get 1).2.contains 4 = c9state.contains 4 ∧
    (c9state.get_mut 1).2.contains 4 = c9state.contains 4 ∧
    (c9state.get 1).2.len = c9state.len :=
  C9_slru_get_keyset c9state 1 4 ⟨by decide, by decide, by decide⟩
    ⟨by decide, by decide, by decide⟩
    (by
      intro x hx hmem
      simp [c9state, Lru.keys] at hx hmem
      omega)

/-- C10: `put` and `push` never modify the frequency-estimator state: the
approximation sketch, the doorkeeper and the sample counter are identical
before and after the call. -/
theorem C10_put_push_estimator_frame {K V : Type} [DecidableEq K]
    (c : WTinyLfu K V) (k : K) (v : V) :
    ((c.put k v).2.approximation_sketch = c.approximation_sketch ∧
     (c.put k v).2.doorkeeper = c.doorkeeper ∧
     (c.put k v).2.sample_counter = c.sample_counter) ∧
    ((c.push k v).2.approximation_sketch = c.approximation_sketch ∧
     (c.push k v).2.doorkeeper = c.doorkeeper ∧
     (c.push k v).2.sample_counter = c.sample_counter) := by
  obtain ⟨h1, h2, h3, _⟩ := WTinyLfu.put_estimator c k v
  obtain ⟨g1, g2, g3, _⟩ := WTinyLfu.push_estimator c k v
  exact ⟨⟨h1, h2, h3⟩, ⟨g1, g2, g3⟩⟩

theorem Slru.peek_lru_if_full_eq_some {s : Slru K V} {mv : K × V}
    (h : s.peek_lru_if_full = some mv) :
    s.probationary_segment.entries.length = s.probationary_segment.cap ∧
    s.probationary_segment.entries.getLast? = some mv := by
  unfold Slru.peek_lru_if_full at h
  by_cases hl : s.probationary_segment.len ≠ s.probationary_segment.cap
  · rw [if_pos hl] at h
    exact absurd h (by simp)
  · rw [if_neg hl] at h
    push_neg at hl
    exact ⟨hl, h⟩

theorem Lru.contains_cons_self {c : Nat} {k : K} {v : V} {t : List (K × V)} :
    (⟨c, (k, v) :: t⟩ : Lru K V).contains k = true := by
  unfold Lru.contains
  rw [List.find?_cons_of_pos _ (by simp [keyd])]
  rfl

/-- C1: when a fresh push evicts `(kw, vw)` from the window and the
probationary segment is at capacity with LRU pair `(km, vm)`, the evictee is
admitted into the main cache exactly when `estimate kw > estimate km`; on a
tie or less the main cache is untouched and `(kw, vw)` is the façade's
eviction, and on admission the displaced probationary LRU `(km, vm)` is the
façade's eviction. -/
theorem C1_admission_contest {K V : Type} [DecidableEq K] (c : WTinyLfu K V)
    (k kw km : K) (v vw vm : V)
    (hinv : Inv c)
    (hcw : c.window_cache.contains k = false)
    (hcm : c.main_cache.contains k = false)
    (hr : (c.window_cache.push k v).1 = some (kw, vw))
    (hfull : c.main_cache.peek_lru_if_full = some (km, vm)) :
    (c.estimate kw ≤ c.estimate km →
      (c.push k v).1 = some (kw, vw) ∧
      (c.push k v).2.main_cache = c.main_cache) ∧
    (c.estimate km < c.estimate kw →
      (c.push k v).1 = some (km, vm) ∧
      (c.push k v).2.main_cache = (c.main_cache.push kw vw).2 ∧
      (c.push k v).2.main_cache.probationary_segment.contains kw = true) := by
  obtain ⟨hw, hp, hq, hwp, hwq, hpq⟩ := hinv
  obtain ⟨hwvmem, _, _⟩ :=
    Lru.push_evict_of_not_contains (v := v) hcw hw hr
  have hkwp : kw ∉ c.main_cache.probationary_segment.keys := hwp kw hwvmem
  have hkwq : kw ∉ c.main_cache.protected_segment.keys := hwq kw hwvmem
  have hkwm : c.main_cache.contains kw = false :=
    Slru.contains_eq_false_iff.mpr
      ⟨Lru.contains_eq_false.mpr hkwp, Lru.contains_eq_false.mpr hkwq⟩
  obtain ⟨hplen, hplast⟩ := Slru.peek_lru_if_full_eq_some hfull
  have hfp : c.main_cache.probationary_segment.entries.find? (keyd kw) = none :=
    find?_keyd_eq_none.mpr hkwp
  have hppush : c.main_cache.probationary_segment.push kw vw =
      (some (km, vm),
       ⟨c.main_cache.probationary_segment.cap,
        (kw, vw) :: c.main_cache.probationary_segment.entries.dropLast⟩) := by
    rw [Lru.push_eq_of_none_full hfp hplen, hplast]
  have hmpush : c.main_cache.push kw vw =
      (some (km, vm),
       ⟨⟨c.main_cache.probationary_segment.cap,
         (kw, vw) :: c.main_cache.probationary_segment.entries.dropLast⟩,
        c.main_cache.protected_segment⟩) := by
    rw [Slru.push_eq_of_not_contains hkwm, hppush]
  constructor
  · intro hle
    have hest : ¬ c.estimate km < c.estimate kw := not_lt.mpr hle
    rw [WTinyLfu.push_eq_fresh_evict_full_reject hcw hcm hr hfull hest]
    exact ⟨rfl, rfl⟩
  · intro hlt
    rw [WTinyLfu.push_eq_fresh_evict_full_accept hcw hcm hr hfull hlt]
    refine ⟨?_, rfl, ?_⟩
    · show (c.main_cache.push kw vw).1 = some (km, vm)
      rw [hmpush]
    · show (c.main_cache.push kw vw).2.probationary_segment.contains kw = true
      rw [hmpush]
      exact Lru.contains_cons_self

/-- C1 witness: pushing key 7 into a full cache where the window evictee
(key 5, doorkeeper-boosted estimate 1) beats the probationary LRU (key 2,
estimate 0) admits key 5 and returns the displaced pair `(2, 20)`. -/
theorem C1_admission_contest_witness :
    (c1state.estimate 2 < c1state.estimate 5) ∧
    ((c1state.push 7 99).1 = some (2, 20) ∧
     (c1state.push 7 99).2.main_cache = (c1state.main_cache.push 5 50).2 ∧
     (c1state.push 7 99).2.main_cache.probationary_segment.contains 5 = true) := by
  have hinv : Inv c1state := by
    refine ⟨⟨by decide, by decide, by decide⟩, ⟨by decide, by decide, by decide⟩,
      ⟨by decide, by decide, by decide⟩, ?_, ?_, ?_⟩ <;>
      (intro x hx hmem; simp [c1state, Lru.keys] at hx hmem; omega)
  exact ⟨by decide,
    (C1_admission_contest c1state 7 5 2 99 50 20 hinv (by decide) (by decide)
      (by decide) (by decide)).2 (by decide)⟩

theorem sketchEstimate_increment (s : List (K × Nat)) (k : K) :
    sketchEstimate (sketchIncrement s k) k = sketchEstimate s k + 1 := by
  unfold sketchIncrement sketchEstimate
  cases hf : s.find? (keyd k) with
  | some p =>
    rw [List.find?_cons_of_pos _ (by simp [keyd])]
  | none =>
    rw [List.find?_cons_of_pos _ (by simp [keyd])]

theorem WTinyLfu.get_estimator_fields {c : WTinyLfu K V} {k : K}
    (h : (c.get k).1.isSome = true) :
    (doorCheck c.doorkeeper k = true →
      (c.sample_size ≤ c.sample_counter + 1 →
        (c.get k).2.approximation_sketch = [] ∧
        (c.get k).2.doorkeeper = [] ∧
        (c.get k).2.sample_counter = 0) ∧
      (¬ c.sample_size ≤ c.sample_counter + 1 →
        (c.get k).2.approximation_sketch
          = sketchIncrement c.approximation_sketch k ∧
        (c.get k).2.sample_counter = c.sample_counter + 1 ∧
        (c.get k).2.doorkeeper = c.doorkeeper)) ∧
    (doorCheck c.doorkeeper k = false →
      (c.get k).2.doorkeeper = doorSet c.doorkeeper k ∧
      (c.get k).2.approximation_sketch = c.approximation_sketch ∧
      (c.get k).2.sample_counter = c.sample_counter) := by
  unfold WTinyLfu.get at h ⊢
  cases hw : c.window_cache.get k with
  | mk wv w =>
    cases wv with
    | some v =>
      constructor
      · intro hd
        constructor
        · intro hs
          simp [hw, hd, hs]
        · intro hs
          simp [hw, hd, hs]
      · intro hd
        simp [hw, hd]
    | none =>
      cases hm : c.main_cache.get k with
      | mk mv m2 =>
        cases mv with
        | some v =>
          constructor
          · intro hd
            constructor
            · intro hs
              simp [hw, hm, hd, hs]
            · intro hs
              simp [hw, hm, hd, hs]
          · intro hd
            simp [hw, hm, hd]
        | none =>
          rw [hw] at h
          simp [hm] at h

/-- C2: on a `get` or `get_mut` hit, if the doorkeeper contains the key the
sketch count of the key is incremented and the sample counter incremented by
one, otherwise the key is inserted into the doorkeeper; and whenever the
incremented counter reaches the sample size the sketch is reset to zero, the
doorkeeper cleared and the counter set to 0. -/
theorem C2_record_on_hit {K V : Type} [DecidableEq K] (c : WTinyLfu K V)
    (k : K) (h : (c.get k).1.isSome = true) :
    (doorCheck c.doorkeeper k = true →
      (c.sample_size ≤ c.sample_counter + 1 →
        (c.get k).2.approximation_sketch = [] ∧
        (c.get k).2.doorkeeper = [] ∧
        (c.get k).2.sample_counter = 0) ∧
      (¬ c.sample_size ≤ c.sample_counter + 1 →
        (c.get k).2.approximation_sketch
          = sketchIncrement c.approximation_sketch k ∧
        sketchEstimate (c.get k).2.approximation_sketch k
          = sketchEstimate c.approximation_sketch k + 1 ∧
        (c.get k).2.sample_counter = c.sample_counter + 1 ∧
        (c.get k).2.doorkeeper = c.doorkeeper)) ∧
    (doorCheck c.doorkeeper k = false →
      (c.get k).2.doorkeeper = doorSet c.doorkeeper k ∧
      (c.get k).2.approximation_sketch = c.approximation_sketch ∧
      (c.get k).2.sample_counter = c.sample_counter) ∧
    c.get_mut k = c.get k := by
  obtain ⟨h1, h2⟩ := WTinyLfu.get_estimator_fields h
  refine ⟨?_, h2, WTinyLfu.cache_get_mut_eq c k⟩
  intro hd
  obtain ⟨h11, h12⟩ := h1 hd
  refine ⟨h11, ?_⟩
  intro hs
  obtain ⟨g1, g2, g3⟩ := h12 hs
  refine ⟨g1, ?_, g2, g3⟩
  rw [g1, sketchEstimate_increment]

/-- C2 witness: a hit on key 1 whose doorkeeper bit is set increments the
sketch and the sample counter (sample size 2 is not yet reached). -/
theorem C2_record_on_hit_witness :
    (c2state.get 1).1.isSome = true ∧
    ((c2state.get 1).2.approximation_sketch
      = sketchIncrement c2state.approximation_sketch 1 ∧
     sketchEstimate (c2state.get 1).2.approximation_sketch 1
      = sketchEstimate c2state.approximation_sketch 1 + 1 ∧
     (c2state.get 1).2.sample_counter = c2state.sample_counter + 1 ∧
     (c2state.get 1).2.doorkeeper = c2state.doorkeeper) :=
  ⟨by decide,
   ((C2_record_on_hit c2state 1 (by decide)).1 (by decide)).2 (by decide)⟩

/-- C4: on the SLRU, `get`/`get_mut` of a key held in the probationary
segment removes it there and pushes it onto the protected segment as MRU;
if that push displaces the protected LRU, the displaced pair is pushed into
the probationary segment as its MRU; the value is then looked up in the
protected segment and returned.  A key held in neither segment returns
`none` and leaves the SLRU unchanged. -/
theorem C4_slru_get_contract {K V : Type} [DecidableEq K] (s : Slru K V)
    (k : K) (v : V) (xy : K × V) :
    (s.contains k = false → s.get k = (none, s)) ∧
    (s.probationary_segment.entries.find? (keyd k) = some (k, v) →
     s.protected_segment.contains k = false →
     (s.get k).1 = some v ∧
     (s.protected_segment.entries.length = s.protected_segment.cap →
      s.protected_segment.entries.getLast? = some xy →
      (s.get k).2 =
        ⟨((⟨s.probationary_segment.cap,
            s.probationary_segment.entries.eraseP (keyd k)⟩ : Lru K V).push
              xy.1 xy.2).2,
         ⟨s.protected_segment.cap,
          (k, v) :: s.protected_segment.entries.dropLast⟩⟩) ∧
     (s.protected_segment.entries.length ≠ s.protected_segment.cap →
      (s.get k).2 =
        ⟨⟨s.probationary_segment.cap,
          s.probationary_segment.entries.eraseP (keyd k)⟩,
         ⟨s.protected_segment.cap, (k, v) :: s.protected_segment.entries⟩⟩)) ∧
    s.get_mut k = s.get k := by
  refine ⟨?_, ?_, rfl⟩
  · intro hc
    obtain ⟨hcp, hcq⟩ := Slru.contains_eq_false_iff.mp hc
    have hfp : s.probationary_segment.entries.find? (keyd k) = none :=
      find?_keyd_eq_none.mpr (Lru.contains_eq_false.mp hcp)
    have hfq : s.protected_segment.entries.find? (keyd k) = none :=
      find?_keyd_eq_none.mpr (Lru.contains_eq_false.mp hcq)
    unfold Slru.get
    simp only [Lru.pop_entry_eq_of_none hfp, Lru.get_eq_of_none hfq]
  · intro hf hcq
    have hfq : s.protected_segment.entries.find? (keyd k) = none :=
      find?_keyd_eq_none.mpr (Lru.contains_eq_false.mp hcq)
    refine ⟨?_, ?_, ?_⟩
    · by_cases hlen : s.protected_segment.entries.length
          = s.protected_segment.cap
      · cases hg : s.protected_segment.entries.getLast? with
        | some q =>
          simp only [Slru.get, Lru.pop_entry_eq_of_some hf,
            Lru.push_eq_of_none_full hfq hlen, hg, Lru.get_head]
        | none =>
          simp only [Slru.get, Lru.pop_entry_eq_of_some hf,
            Lru.push_eq_of_none_full hfq hlen, hg, Lru.get_head]
      · simp only [Slru.get, Lru.pop_entry_eq_of_some hf,
          Lru.push_eq_of_none_notfull hfq hlen, Lru.get_head]
    · intro hlen hlast
      simp only [Slru.get, Lru.pop_entry_eq_of_some hf,
        Lru.push_eq_of_none_full hfq hlen, hlast, Lru.get_head]
    · intro hlen
      simp only [Slru.get, Lru.pop_entry_eq_of_some hf,
        Lru.push_eq_of_none_notfull hfq hlen, Lru.get_head]

/-- C4 witness: promoting key 1 out of probationary displaces the protected
LRU `(2, 20)` back into probationary, and a missing key leaves the SLRU
unchanged. -/
theorem C4_slru_get_contract_witness :
    (c4state.get 9 = (none, c4state)) ∧
    ((c4state.get 1).1 = some 10 ∧
     (c4state.get 1).2 =
       ⟨((⟨c4state.probationary_segment.cap,
           c4state.probationary_segment.entries.eraseP (keyd 1)⟩ : Lru Nat Nat).push
             2 20).2,
        ⟨c4state.protected_segment.cap,
         (1, 10) :: c4state.protected_segment.entries.dropLast⟩⟩) :=
  ⟨(C4_slru_get_contract c4state 9 0 (2, 20)).1 (by decide),
   ⟨((C4_slru_get_contract c4state 1 10 (2, 20)).2.1 (by decide) (by decide)).1,
    ((C4_slru_get_contract c4state 1 10 (2, 20)).2.1 (by decide) (by decide)).2.1
      (by decide) (by decide)⟩⟩

theorem WTinyLfu.cache_contains_eq (c : WTinyLfu K V) (k : K) :
    c.contains k = (c.window_cache.contains k || c.main_cache.contains k) := by
  unfold WTinyLfu.contains
  cases c.window_cache.contains k <;> rfl

theorem WTinyLfu.cache_contains_iff {c : WTinyLfu K V} {k : K} :
    c.contains k = true ↔
      k ∈ c.window_cache.keys ∨
      (k ∈ c.main_cache.probationary_segment.keys ∨
       k ∈ c.main_cache.protected_segment.keys) := by
  rw [WTinyLfu.cache_contains_eq, Bool.or_eq_true, Lru.lru_contains_iff, Slru.slru_contains_iff]

/-- C8: in every reachable cache state, iterating yields each present key
exactly once (count one for present keys, zero for absent ones), and the
iterator is the window's entries in recency order followed by the main
cache's entries, probationary before protected. -/
theorem C8_iteration {K V : Type} [DecidableEq K] (c : WTinyLfu K V) (k : K)
    (h : Reachable c) :
    ((c.iter.map Prod.fst).count k = if c.contains k = true then 1 else 0) ∧
    c.iter = c.window_cache.iter ++ c.main_cache.iter ∧
    c.main_cache.iter = c.main_cache.probationary_segment.iter
      ++ c.main_cache.protected_segment.iter := by
  obtain ⟨hw, hp, hq, hwp, hwq, hpq⟩ := WTinyLfu.inv_of_reachable h
  refine ⟨?_, rfl, rfl⟩
  have hkeys : c.iter.map Prod.fst = c.window_cache.keys
      ++ (c.main_cache.probationary_segment.keys
          ++ c.main_cache.protected_segment.keys) := by
    simp [WTinyLfu.iter, Slru.iter, Lru.iter, Lru.keys]
  have hnd : (c.iter.map Prod.fst).Nodup := by
    rw [hkeys]
    refine List.nodup_append.mpr ⟨hw.1,
      List.nodup_append.mpr ⟨hp.1, hq.1, fun a ha hb => hpq a ha hb⟩, ?_⟩
    intro a ha hb
    rcases List.mem_append.mp hb with hb' | hb'
    · exact hwp a ha hb'
    · exact hwq a ha hb'
  have hmem : k ∈ c.iter.map Prod.fst ↔ c.contains k = true := by
    rw [hkeys, List.mem_append, List.mem_append, WTinyLfu.cache_contains_iff]
  by_cases hc : c.contains k = true
  · rw [if_pos hc]
    exact List.count_eq_one_of_mem hnd (hmem.mpr hc)
  · rw [if_neg hc]
    refine List.count_eq_zero_of_not_mem ?_
    intro hmemk
    exact hc (hmem.mp hmemk)

/-- C8 witness: after two pushes into a fresh cache of capacity 3, key 1 is
yielded exactly once and key 9 not at all, in window-then-main order. -/
theorem C8_iteration_witness :
    ((c8state.iter.map Prod.fst).count 1
      = if c8state.contains 1 = true then 1 else 0) ∧
    ((c8state.iter.map Prod.fst).count 9
      = if c8state.contains 9 = true then 1 else 0) ∧
    c8state.iter = c8state.window_cache.iter ++ c8state.main_cache.iter :=
  ⟨(C8_iteration c8state 1 ⟨3, 10, [Op.push 1 11, Op.push 2 22], rfl⟩).1,
   (C8_iteration c8state 9 ⟨3, 10, [Op.push 1 11, Op.push 2 22], rfl⟩).1,
   (C8_iteration c8state 1 ⟨3, 10, [Op.push 1 11, Op.push 2 22], rfl⟩).2.1⟩

theorem Lru.put_eq_of_some {l : Lru K V} {k : K} {v : V} {p : K × V}
    (hf : l.entries.find? (keyd k) = some p) :
    l.put k v = (some p.2, ⟨l.cap, (k, v) :: l.entries.eraseP (keyd k)⟩) := by
  unfold Lru.put
  rw [hf]

theorem find?_cons_self {k : K} {v : V} {t : List (K × V)} :
    ((k, v) :: t).find? (keyd k) = some (k, v) :=
  List.find?_cons_of_pos _ (by simp [keyd])

theorem Lru.contains_of_find? {l : Lru K V} {k : K} {p : K × V}
    (hf : l.entries.find? (keyd k) = some p) : l.contains k = true := by
  unfold Lru.contains
  rw [hf]
  rfl

theorem Lru.peek_eq_none {l : Lru K V} {k : K} (hc : l.contains k = false) :
    l.peek k = none := by
  unfold Lru.contains at hc
  unfold Lru.peek
  cases hf : l.entries.find? (keyd k) with
  | none => rfl
  | some p =>
    rw [hf] at hc
    exact absurd hc (by simp)

theorem Slru.contains_eq_true_of_prob {s : Slru K V} {k : K}
    (h : s.probationary_segment.contains k = true) : s.contains k = true := by
  rw [Slru.slru_contains_eq, h]
  rfl

theorem Slru.contains_eq_true_of_prot {s : Slru K V} {k : K}
    (h : s.protected_segment.contains k = true) : s.contains k = true := by
  rw [Slru.slru_contains_eq, h, Bool.or_true]

theorem WTinyLfu.push_window {c : WTinyLfu K V} {k : K} {v : V}
    (hcw : c.window_cache.contains k = false)
    (hcm : c.main_cache.contains k = false) :
    (c.push k v).2.window_cache = (c.window_cache.push k v).2 := by
  cases hr : (c.window_cache.push k v).1 with
  | none => rw [WTinyLfu.push_eq_fresh_noevict hcw hcm hr]
  | some wv =>
    cases hfull : c.main_cache.peek_lru_if_full with
    | none => rw [WTinyLfu.push_eq_fresh_evict_nofull hcw hcm hr hfull]
    | some mv =>
      by_cases hest : c.estimate mv.1 < c.estimate wv.1
      · rw [WTinyLfu.push_eq_fresh_evict_full_accept hcw hcm hr hfull hest]
      · rw [WTinyLfu.push_eq_fresh_evict_full_reject hcw hcm hr hfull hest]

theorem WTinyLfu.after_put_key (c : WTinyLfu K V) (k : K) (v : V) :
    ((c.put k v).2.window_cache.entries.find? (keyd k) = some (k, v)) ∨
    ((c.put k v).2.window_cache.contains k = false ∧
     ((c.put k v).2.main_cache.probationary_segment.entries.find? (keyd k)
        = some (k, v) ∨
      ((c.put k v).2.main_cache.probationary_segment.contains k = false ∧
       (c.put k v).2.main_cache.protected_segment.entries.find? (keyd k)
        = some (k, v)))) := by
  by_cases hcw : c.window_cache.contains k = true
  · left
    obtain ⟨p, hf⟩ : ∃ p, c.window_cache.entries.find? (keyd k) = some p := by
      unfold Lru.contains at hcw
      exact Option.isSome_iff_exists.mp hcw
    rw [WTinyLfu.put_eq_window_hit hcw]
    show ((c.window_cache.put k v).2).entries.find? (keyd k) = some (k, v)
    rw [Lru.put_eq_of_some hf]
    exact find?_cons_self
  · rw [Bool.not_eq_true] at hcw
    by_cases hcm : c.main_cache.contains k = true
    · right
      rw [WTinyLfu.put_eq_main_hit hcw hcm]
      refine ⟨hcw, ?_⟩
      by_cases hcp : c.main_cache.probationary_segment.contains k = true
      · left
        obtain ⟨p, hf⟩ : ∃ p,
            c.main_cache.probationary_segment.entries.find? (keyd k) = some p := by
          unfold Lru.contains at hcp
          exact Option.isSome_iff_exists.mp hcp
        show ((c.main_cache.put k v).2).probationary_segment.entries.find?
          (keyd k) = some (k, v)
        rw [Slru.put_eq_of_prob_contains hcp]
        show ((c.main_cache.probationary_segment.put k v).2).entries.find?
          (keyd k) = some (k, v)
        rw [Lru.put_eq_of_some hf]
        exact find?_cons_self
      · right
        rw [Bool.not_eq_true] at hcp
        have hcq : c.main_cache.protected_segment.contains k = true := by
          rw [Slru.slru_contains_eq, hcp, Bool.false_or] at hcm
          exact hcm
        obtain ⟨p, hf⟩ : ∃ p,
            c.main_cache.protected_segment.entries.find? (keyd k) = some p := by
          unfold Lru.contains at hcq
          exact Option.isSome_iff_exists.mp hcq
        rw [Slru.put_eq_of_prot_contains hcp hcq]
        refine ⟨hcp, ?_⟩
        show ((c.main_cache.protected_segment.put k v).2).entries.find?
          (keyd k) = some (k, v)
        rw [Lru.put_eq_of_some hf]
        exact find?_cons_self
    · left
      rw [Bool.not_eq_true] at hcm
      rw [WTinyLfu.put_eq_fresh hcw hcm]
      show (c.push k v).2.window_cache.entries.find? (keyd k) = some (k, v)
      rw [WTinyLfu.push_window hcw hcm]
      have hf0 : c.window_cache.entries.find? (keyd k) = none :=
        find?_keyd_eq_none.mpr (Lru.contains_eq_false.mp hcw)
      by_cases hfull : c.window_cache.entries.length = c.window_cache.cap
      · rw [Lru.push_eq_of_none_full hf0 hfull]
        exact find?_cons_self
      · rw [Lru.push_eq_of_none_notfull hf0 hfull]
        exact find?_cons_self

/-- C5: a second `put` of the same key returns the value stored by the first,
a subsequent `peek` sees the new value, and the second `put` does not change
`len`. -/
theorem C5_put_update {K V : Type} [DecidableEq K] (c : WTinyLfu K V) (k : K)
    (v1 v2 : V) :
    ((c.put k v1).2.put k v2).1 = some v1 ∧
    ((c.put k v1).2.put k v2).2.peek k = some v2 ∧
    ((c.put k v1).2.put k v2).2.len = (c.put k v1).2.len := by
  rcases WTinyLfu.after_put_key c k v1 with hwin | ⟨hnw, hmain⟩
  · have hcw : (c.put k v1).2.window_cache.contains k = true :=
      Lru.contains_of_find? hwin
    have hmem : (k, v1) ∈ (c.put k v1).2.window_cache.entries :=
      List.mem_of_find?_eq_some hwin
    have hlen : ((c.put k v1).2.window_cache.entries.eraseP (keyd k)).length
        = (c.put k v1).2.window_cache.entries.length - 1 :=
      List.length_eraseP_of_mem hmem (by simp [keyd])
    have hpos : 1 ≤ (c.put k v1).2.window_cache.entries.length :=
      List.length_pos_of_mem hmem
    rw [WTinyLfu.put_eq_window_hit hcw]
    have hput := Lru.put_eq_of_some (v := v2) hwin
    refine ⟨?_, ?_, ?_⟩
    · show ((c.put k v1).2.window_cache.put k v2).1 = some v1
      rw [hput]
    · show WTinyLfu.peek _ k = some v2
      simp [WTinyLfu.peek, Lru.peek, hput, find?_cons_self]
    · show ((c.put k v1).2.window_cache.put k v2).2.len
        + (c.put k v1).2.main_cache.len = _
      rw [hput]
      show ((k, v2) :: (c.put k v1).2.window_cache.entries.eraseP (keyd k)).length
        + (c.put k v1).2.main_cache.len
        = (c.put k v1).2.window_cache.entries.length
          + (c.put k v1).2.main_cache.len
      rw [List.length_cons, hlen]
      omega
  · rcases hmain with hprob | ⟨hnp, hprot⟩
    · have hcp : (c.put k v1).2.main_cache.probationary_segment.contains k = true :=
        Lru.contains_of_find? hprob
      have hcm : (c.put k v1).2.main_cache.contains k = true :=
        Slru.contains_eq_true_of_prob hcp
      have hmem : (k, v1) ∈ (c.put k v1).2.main_cache.probationary_segment.entries :=
        List.mem_of_find?_eq_some hprob
      have hlen : ((c.put k v1).2.main_cache.probationary_segment.entries.eraseP
          (keyd k)).length
          = (c.put k v1).2.main_cache.probationary_segment.entries.length - 1 :=
        List.length_eraseP_of_mem hmem (by simp [keyd])
      have hpos : 1 ≤ (c.put k v1).2.main_cache.probationary_segment.entries.length :=
        List.length_pos_of_mem hmem
      rw [WTinyLfu.put_eq_main_hit hnw hcm]
      have hmput : (c.put k v1).2.main_cache.put k v2 =
          (((c.put k v1).2.main_cache.probationary_segment.put k v2).1,
           ⟨((c.put k v1).2.main_cache.probationary_segment.put k v2).2,
            (c.put k v1).2.main_cache.protected_segment⟩) :=
        Slru.put_eq_of_prob_contains hcp
      have hput := Lru.put_eq_of_some (v := v2) hprob
      refine ⟨?_, ?_, ?_⟩
      · show ((c.put k v1).2.main_cache.put k v2).1 = some v1
        rw [hmput]
        show ((c.put k v1).2.main_cache.probationary_segment.put k v2).1 = some v1
        rw [hput]
      · show WTinyLfu.peek _ k = some v2
        have hfw : (c.put k v1).2.window_cache.entries.find? (keyd k) = none :=
          find?_keyd_eq_none.mpr (Lru.contains_eq_false.mp hnw)
        simp [WTinyLfu.peek, Slru.peek, Lru.peek, hmput, hput, hfw,
          find?_cons_self]
      · show (c.put k v1).2.window_cache.len
          + ((c.put k v1).2.main_cache.put k v2).2.len = _
        rw [hmput]
        show (c.put k v1).2.window_cache.len
          + (((c.put k v1).2.main_cache.probationary_segment.put k v2).2.entries.length
            + (c.put k v1).2.main_cache.protected_segment.entries.length) = _
        rw [hput]
        show (c.put k v1).2.window_cache.len
          + (((k, v2) :: (c.put k v1).2.main_cache.probationary_segment.entries.eraseP
              (keyd k)).length
            + (c.put k v1).2.main_cache.protected_segment.entries.length)
          = (c.put k v1).2.window_cache.len
          + ((c.put k v1).2.main_cache.probationary_segment.entries.length
            + (c.put k v1).2.main_cache.protected_segment.entries.length)
        rw [List.length_cons, hlen]
        omega
    · have hcq : (c.put k v1).2.main_cache.protected_segment.contains k = true :=
        Lru.contains_of_find? hprot
      have hcm : (c.put k v1).2.main_cache.contains k = true :=
        Slru.contains_eq_true_of_prot hcq
      have hmem : (k, v1) ∈ (c.put k v1).2.main_cache.protected_segment.entries :=
        List.mem_of_find?_eq_some hprot
      have hlen : ((c.put k v1).2.main_cache.protected_segment.entries.eraseP
          (keyd k)).length
          = (c.put k v1).2.main_cache.protected_segment.entries.length - 1 :=
        List.length_eraseP_of_mem hmem (by simp [keyd])
      have hpos : 1 ≤ (c.put k v1).2.main_cache.protected_segment.entries.length :=
        List.length_pos_of_mem hmem
      rw [WTinyLfu.put_eq_main_hit hnw hcm]
      have hmput : (c.put k v1).2.main_cache.put k v2 =
          (((c.put k v1).2.main_cache.protected_segment.put k v2).1,
           ⟨(c.put k v1).2.main_cache.probationary_segment,
            ((c.put k v1).2.main_cache.protected_segment.put k v2).2⟩) :=
        Slru.put_eq_of_prot_contains hnp hcq
      have hput := Lru.put_eq_of_some (v := v2) hprot
      refine ⟨?_, ?_, ?_⟩
      · show ((c.put k v1).2.main_cache.put k v2).1 = some v1
        rw [hmput]
        show ((c.put k v1).2.main_cache.protected_segment.put k v2).1 = some v1
        rw [hput]
      · show WTinyLfu.peek _ k = some v2
        have hfw : (c.put k v1).2.window_cache.entries.find? (keyd k) = none :=
          find?_keyd_eq_none.mpr (Lru.contains_eq_false.mp hnw)
        have hfp : (c.put k v1).2.main_cache.probationary_segment.entries.find?
            (keyd k) = none :=
          find?_keyd_eq_none.mpr (Lru.contains_eq_false.mp hnp)
        simp [WTinyLfu.peek, Slru.peek, Lru.peek, hmput, hput, hfw, hfp,
          find?_cons_self]
      · show (c.put k v1).2.window_cache.len
          + ((c.put k v1).2.main_cache.put k v2).2.len = _
        rw [hmput]
        show (c.put k v1).2.window_cache.len
          + ((c.put k v1).2.main_cache.probationary_segment.entries.length
            + ((c.put k v1).2.main_cache.protected_segment.put k v2).2.entries.length)
          = _
        rw [hput]
        show (c.put k v1).2.window_cache.len
          + ((c.put k v1).2.main_cache.probationary_segment.entries.length
            + (((k, v2) :: (c.put k v1).2.main_cache.protected_segment.entries.eraseP
              (keyd k)).length))
          = (c.put k v1).2.window_cache.len
          + ((c.put k v1).2.main_cache.probationary_segment.entries.length
            + (c.put k v1).2.main_cache.protected_segment.entries.length)
        rw [List.length_cons, hlen]
        omega

end Wtinylfu
